import Mathlib

/-!
# OSpath: scoped reader-writer guarded pointers, checked against `sync.hpp`

A shallow embedding of `include/sync.hpp` (`sys::mutex`, `sys::rwlock`,
`sys::exclusive_ptr`, `sys::exclusive`), of the assertion macros of `err.hpp`,
of `env::date::operator()` of `src/time.cpp`, of `fmt::replace` and
`fmt::split` of `fmt.hpp`, of `env::exe::get` of `src/exe.cpp` and of the
integer conversions of `src/dig.cpp`.

Layout: the definitions come first (platform primitives, `err.hpp`,
`sync.hpp`, the handle machine, `time.cpp`, invariants and sample inputs,
`fmt.hpp`, `exe.cpp`, `dig.cpp`), the lemmas and theorems follow.

Conventions.
* A blocking call is a function into `Option`: `none` means that the call
  does not complete in the given state.
* Addresses are natural numbers and `0` is `nullptr`.
* Fields marked "ghost" are read by no operation; they only name things
  in statements.
* A loop without a bound of its own takes the number of iterations it is
  allowed as an argument and ends in a `Res`; `npos` is `none`.
-/

namespace OSpath

/-- Addresses of objects; `0` is the null pointer. -/
abbrev Ptr := Nat

/-- The null pointer. -/
def nullptr : Ptr := 0

/-! ## Build configuration and the externals of `err.hpp` -/

/-- What the translation unit is compiled and run with: the two preprocessor
symbols the sources branch on, the run-time flag `sys::debug`, and the two
functions `err.hpp` only declares (`operator<<` for `fmt::where` and
`sys::impl::warn`), taken as parameters.  `warnImpl msg out` is `none` when the
call does not return. -/
structure Env where
  NDEBUG : Bool
  WIN32 : Bool
  debug : Bool
  showWhere : String → Nat → String → String
  warnImpl : String → List String → Option (List String)

/-- Lines reported so far through `sys::impl::warn`. -/
abbrev Out := List String

/-! ## Platform primitives -/

/-- Modelled from the spec: the internal state of the primitive reader-writer
lock (`uni::rwlock` of `uni/pthread.hpp`, `win::srwlock` of `win/sync.hpp`;
neither header is among the sources).  Section 3: "internal state
Unlocked, Shared(n≥1), Exclusive". -/
inductive LockState where
  | Unlocked
  | Shared (n : Nat)
  | Exclusive
deriving DecidableEq, Repr

/-- Modelled from the spec: the primitive reader-writer lock, instrumented as
section 8 asks ("instrument the primitive lock to count acquire/release
pairs"): `acquired` and `released` count the completed calls. -/
structure RwPrim where
  state : LockState
  acquired : Nat
  released : Nat
deriving DecidableEq, Repr

/-- Modelled from the spec: the primitive mutual-exclusion lock (`uni::mutex`,
`win::critical_section`; not among the sources), section 4.1: free or held,
with the same instrumentation. -/
structure MutexPrim where
  held : Bool
  acquired : Nat
  released : Nat
deriving DecidableEq, Repr

/-- Modelled from the spec: acquire-as-reader on a lock state, section 4.2:
"Unlocked → Shared(n) on first reader acquisition, Shared(n) → Shared(n+1) on
subsequent reader acquisitions"; "a reader acquisition blocks only while the
state is Exclusive". -/
def LockState.acquireShared : LockState → Option LockState
  | .Unlocked => some (.Shared 1)
  | .Shared n => some (.Shared (n + 1))
  | .Exclusive => none

/-- Modelled from the spec: acquire-as-writer, section 4.2: "Unlocked →
Exclusive on writer acquisition"; "a writer acquisition blocks until the state
is Unlocked". -/
def LockState.acquireExclusive : LockState → Option LockState
  | .Unlocked => some .Exclusive
  | .Shared _ => none
  | .Exclusive => none

/-- Modelled from the spec: release of a shared hold, section 4.2: "Shared(n) →
Shared(n-1) on reader release, Shared(1) → Unlocked on last reader release".
In any other state there is no shared hold to release (section 4.1: a release
without a matching acquisition is undefined behaviour), rendered as `none`. -/
def LockState.releaseShared : LockState → Option LockState
  | .Shared (n + 2) => some (.Shared (n + 1))
  | .Shared 1 => some .Unlocked
  | .Shared 0 => none
  | .Unlocked => none
  | .Exclusive => none

/-- Modelled from the spec: release of the exclusive hold, section 4.2:
"Exclusive → Unlocked on writer release". -/
def LockState.releaseExclusive : LockState → Option LockState
  | .Exclusive => some .Unlocked
  | .Unlocked => none
  | .Shared _ => none

/-- Modelled from the spec: a completed acquisition, by the state change `f`,
counted on the instrumented primitive; it blocks when `f` does. -/
def RwPrim.acquire (f : LockState → Option LockState) (l : RwPrim) : Option RwPrim :=
  (f l.state).map fun s => { l with state := s, acquired := l.acquired + 1 }

/-- Modelled from the spec: a completed release, by the state change `f`,
counted on the instrumented primitive. -/
def RwPrim.release (f : LockState → Option LockState) (l : RwPrim) : Option RwPrim :=
  (f l.state).map fun s => { l with state := s, released := l.released + 1 }

namespace uni

/-- Modelled from the spec: `uni::rwlock::rdlock()` (POSIX read lock). -/
def rdlock (l : RwPrim) : Option RwPrim := l.acquire LockState.acquireShared

/-- Modelled from the spec: `uni::rwlock::wrlock()` (POSIX write lock). -/
def wrlock (l : RwPrim) : Option RwPrim := l.acquire LockState.acquireExclusive

/-- Modelled from the spec: `uni::rwlock::unlock()`.  POSIX has a single unlock
call; it gives back whichever hold the lock is in. -/
def unlock (l : RwPrim) : Option RwPrim :=
  l.release fun s =>
    match s with
    | .Exclusive => LockState.releaseExclusive s
    | _ => LockState.releaseShared s

/-- Modelled from the spec: `uni::mutex::lock()`: blocks while held. -/
def mutex_lock (m : MutexPrim) : Option MutexPrim :=
  if m.held then none else some { m with held := true, acquired := m.acquired + 1 }

/-- Modelled from the spec: `uni::mutex::unlock()`: "transitions back to free";
without a matching acquisition it is undefined (`none`). -/
def mutex_unlock (m : MutexPrim) : Option MutexPrim :=
  if m.held then some { m with held := false, released := m.released + 1 } else none

end uni

namespace win

/-- Modelled from the spec: `win::srwlock::lock()` (shared acquisition). -/
def lock (l : RwPrim) : Option RwPrim := l.acquire LockState.acquireShared

/-- Modelled from the spec: `win::srwlock::unlock()` (shared release). -/
def unlock (l : RwPrim) : Option RwPrim := l.release LockState.releaseShared

/-- Modelled from the spec: `win::srwlock::xlock()` (exclusive acquisition). -/
def xlock (l : RwPrim) : Option RwPrim := l.acquire LockState.acquireExclusive

/-- Modelled from the spec: `win::srwlock::xunlock()` (exclusive release). -/
def xunlock (l : RwPrim) : Option RwPrim := l.release LockState.releaseExclusive

/-- Modelled from the spec: `win::critical_section::enter()`. -/
def enter (m : MutexPrim) : Option MutexPrim := uni.mutex_lock m

/-- Modelled from the spec: `win::critical_section::leave()`. -/
def leave (m : MutexPrim) : Option MutexPrim := uni.mutex_unlock m

end win

/-! ## `err.hpp` -/

namespace fmt

/-- `fmt::err(arg, args...)` at the two-argument use `err(here, #x)`: the
arguments streamed with a blank between them. -/
def err (e : Env) (file : String) (line : Nat) (func : String) (text : String) : String :=
  e.showWhere file line func ++ " " ++ text

end fmt

namespace sys

/-- The pessimistic booleans of `err.hpp`: `success = false`. -/
def success : Bool := false

/-- The pessimistic booleans of `err.hpp`: `failure = true`. -/
def failure : Bool := true

/-- `sys::warn(args...)`: outside `NDEBUG` and with `sys::debug` set it calls
`impl::warn` on the formatted message and returns `success`; otherwise it
returns `failure` and does nothing. -/
def warn (e : Env) (msg : String) (out : Out) : Option (Bool × Out) :=
  if !e.NDEBUG && e.debug then
    (e.warnImpl msg out).map fun o => (success, o)
  else
    some (failure, out)

/-- The macro `assert(x)`: empty under `NDEBUG`, else
`if (not(x)) sys::warn(here, #x)`.  Control continues after it whenever
`sys::warn` returns. -/
def assert (e : Env) (x : Bool) (file : String) (line : Nat) (func : String)
    (text : String) (out : Out) : Option Out :=
  if e.NDEBUG then some out
  else if !x then (warn e (fmt.err e file line func text) out).map Prod.snd
  else some out


/-! ## `sync.hpp`: `sys::mutex` and `sys::rwlock` -/

/-- "Lock mode: enumeration Reader, Writer" (section 3).  On a key it names
the member function, `reader()` or `writer()`, whose lambda the deleter is. -/
inductive Mode where
  | Reader
  | Writer
deriving DecidableEq, Repr

/-- `sys::mutex`: the primitive it privately derives from, at address `this`. -/
structure mutex where
  this : Ptr
  prim : MutexPrim
deriving DecidableEq, Repr

/-- `sys::mutex` declares no constructor: a mutex at address `this` starts
free, its counters at zero. -/
def mutex.ctor (this : Ptr) : mutex :=
  { this := this, prim := { held := false, acquired := 0, released := 0 } }

/-- The deleter state of the `shared_ptr<mutex>` that `mutex::key()` returns:
`that` is the stored pointer, handed to the lambda `[this](auto that)`. -/
structure MutexKey where
  that : Ptr
deriving DecidableEq, Repr

/-- `mutex::key()`: `lock()` (`enter()` under `_WIN32`), then
`fwd::make_shared<mutex>(this, deleter)`. -/
def mutex.key (e : Env) (m : mutex) : Option (mutex × MutexKey) :=
  (if e.WIN32 then win.enter m.prim else uni.mutex_lock m.prim).map fun p =>
    ({ m with prim := p }, { that := m.this })

/-- The lambda of `mutex::key()`: `assert(this == that); unlock();`
(`leave()` under `_WIN32`). -/
def MutexKey.deleter (e : Env) (k : MutexKey) (m : mutex) (out : Out) : Option (mutex × Out) :=
  (assert e (m.this == k.that) "sync.hpp" (if e.WIN32 then 29 else 76) "operator()"
      "this == that" out).bind fun o =>
    (if e.WIN32 then win.leave m.prim else uni.mutex_unlock m.prim).map fun p =>
      ({ m with prim := p }, o)

/-- `sys::rwlock`: the primitive it privately derives from, at address `this`. -/
structure rwlock where
  this : Ptr
  prim : RwPrim
deriving DecidableEq, Repr

/-- `sys::rwlock` declares no constructor: a lock at address `this` starts
unlocked, its counters at zero. -/
def rwlock.ctor (this : Ptr) : rwlock :=
  { this := this, prim := { state := .Unlocked, acquired := 0, released := 0 } }

/-- The deleter state of the `shared_ptr<rwlock>` that `rwlock::reader()` or
`rwlock::writer()` returns: the stored pointer, and which of the two lambdas
it is. -/
structure RwKey where
  that : Ptr
  mode : Mode
deriving DecidableEq, Repr

/-- `rwlock::reader()`: `rdlock()` (`lock()` under `_WIN32`), then
`fwd::make_shared<rwlock>(this, deleter)`. -/
def rwlock.reader (e : Env) (l : rwlock) : Option (rwlock × RwKey) :=
  (if e.WIN32 then win.lock l.prim else uni.rdlock l.prim).map fun p =>
    ({ l with prim := p }, { that := l.this, mode := .Reader })

/-- `rwlock::writer()`: `wrlock()` (`xlock()` under `_WIN32`), then
`fwd::make_shared<rwlock>(this, deleter)`. -/
def rwlock.writer (e : Env) (l : rwlock) : Option (rwlock × RwKey) :=
  (if e.WIN32 then win.xlock l.prim else uni.wrlock l.prim).map fun p =>
    ({ l with prim := p }, { that := l.this, mode := .Writer })

/-- The primitive release the lambda of a key calls: on POSIX both lambdas
call `unlock()`; under `_WIN32` the reader lambda calls `unlock()` and the
writer lambda `xunlock()`. -/
def RwKey.unlock (e : Env) (k : RwKey) (p : RwPrim) : Option RwPrim :=
  if e.WIN32 then
    match k.mode with
    | .Reader => win.unlock p
    | .Writer => win.xunlock p
  else
    uni.unlock p

/-- The lambda of `rwlock::reader()` / `rwlock::writer()`:
`assert(this == that);` and the release. -/
def RwKey.deleter (e : Env) (k : RwKey) (l : rwlock) (out : Out) : Option (rwlock × Out) :=
  (assert e (l.this == k.that) "sync.hpp"
      (if e.WIN32 then (if k.mode = .Reader then 44 else 56)
       else (if k.mode = .Reader then 91 else 103))
      "operator()" "this == that" out).bind fun o =>
    (k.unlock e l.prim).map fun p => ({ l with prim := p }, o)

/-! ## `sync.hpp`: `sys::exclusive_ptr` and `sys::exclusive` -/

/-- `template <class object> class exclusive_ptr`: the `mutable rwlock lock`
and the `object* that`. -/
structure exclusive_ptr where
  lock : rwlock
  that : Ptr
deriving DecidableEq, Repr

/-- The constructor `exclusive_ptr(object* ptr) : that(ptr)` with its body
`assert(nullptr != ptr);`.  The lock member, at address `lockAt`, is default
constructed. -/
def exclusive_ptr.ctor (e : Env) (lockAt : Ptr) (ptr : Ptr) (out : Out) :
    Option (exclusive_ptr × Out) :=
  (assert e (nullptr != ptr) "sync.hpp" 123 "exclusive_ptr" "nullptr != ptr" out).map fun o =>
    ({ lock := rwlock.ctor lockAt, that := ptr }, o)

/-- The state of the `shared_ptr<object>` that `exclusive_ptr::reader()` or
`writer()` returns: the stored pointer `that`, and the `key` captured by the
deleter lambda `[this, key=lock.reader()]`.  The lambda is the only owner of
`key`, so the key lives exactly as long as the lambda, which the control block
of the token holds. -/
structure Token where
  that : Ptr
  key : RwKey
deriving DecidableEq, Repr

/-- `exclusive_ptr::reader() const`:
`fwd::make_shared<object>(that, [this, key=lock.reader()] ...)`. -/
def exclusive_ptr.reader (e : Env) (p : exclusive_ptr) : Option (exclusive_ptr × Token) :=
  (p.lock.reader e).map fun lk => ({ p with lock := lk.1 }, { that := p.that, key := lk.2 })

/-- `exclusive_ptr::writer()`:
`fwd::make_shared<object>(that, [this, key=lock.writer()] ...)`. -/
def exclusive_ptr.writer (e : Env) (p : exclusive_ptr) : Option (exclusive_ptr × Token) :=
  (p.lock.writer e).map fun lk => ({ p with lock := lk.1 }, { that := p.that, key := lk.2 })

/-- End of a token: the deleter lambda runs (`assert(this->that == that);`),
then the lambda is destroyed and with it the captured `key`, whose own
deleter releases the lock. -/
def Token.deleter (e : Env) (t : Token) (p : exclusive_ptr) (out : Out) :
    Option (exclusive_ptr × Out) :=
  (assert e (p.that == t.that) "sync.hpp" (if t.key.mode = .Reader then 132 else 142)
      "operator()" "this->that == that" out).bind fun o =>
    (t.key.deleter e p.lock o).map fun lo => ({ p with lock := lo.1 }, lo.2)

/-- `exclusive_ptr::get()`, both overloads: `return that;`.  Written in
state-passing form, so that what it leaves alone can be stated. -/
def exclusive_ptr.get (p : exclusive_ptr) : Ptr × exclusive_ptr :=
  (p.that, p)

/-- `template <class object> struct exclusive final : private object` with
its member `exclusive_ptr<object> that`. -/
structure exclusive where
  that : exclusive_ptr
deriving DecidableEq, Repr

/-- The constructor `exclusive() : that(this)`.  `this` is the address of the
object under construction; converted to `object*` it denotes the same object,
seen as its base. -/
def exclusive.ctor (e : Env) (this : Ptr) (lockAt : Ptr) (out : Out) :
    Option (exclusive × Out) :=
  (exclusive_ptr.ctor e lockAt this out).map fun po => ({ that := po.1 }, po.2)

/-- `exclusive::reader() const`: `return that.reader();`. -/
def exclusive.reader (e : Env) (x : exclusive) : Option (exclusive × Token) :=
  (x.that.reader e).map fun pt => ({ that := pt.1 }, pt.2)

/-- `exclusive::writer()`: `return that.writer();`. -/
def exclusive.writer (e : Env) (x : exclusive) : Option (exclusive × Token) :=
  (x.that.writer e).map fun pt => ({ that := pt.1 }, pt.2)

/-- `exclusive::get()`, both overloads: `return that.get();`. -/
def exclusive.get (x : exclusive) : Ptr × exclusive :=
  ((x.that.get).1, { that := (x.that.get).2 })

end sys

/-! ## Tokens as reference-counted handles -/

namespace fwd

/-- Modelled from the spec: what `fwd::make_shared(ptr, deleter)` (`ptr.hpp`,
not among the sources) returns, section 9: "tokens implemented via
reference-counted handles with custom destruction callbacks".  A handle is a
`shared_ptr` object of the program; it owns one control block, or nothing
once it has been moved from. -/
structure Handle where
  id : Nat
  owns : Option Nat
deriving DecidableEq, Repr

/-- Modelled from the spec: the control block behind the handles of one token:
its identity and its destruction callback `del` (the deleter with what it
captured). -/
structure Ctrl (δ : Type) where
  id : Nat
  del : δ
deriving DecidableEq, Repr

/-- Modelled from the spec: a lock `res` together with the tokens handed out
on it.  `nctrl` and `nhandle` count the control blocks and handles created so
far and supply fresh identities; `released` is ghost: the control blocks whose
callback has run, latest first. -/
structure Heap (ρ δ : Type) where
  res : ρ
  nctrl : Nat
  nhandle : Nat
  ctrls : List (Ctrl δ)
  handles : List Handle
  released : List Nat

/-- Modelled from the spec: what a program can do with the handles that
`fwd::make_shared` returns: create a token (`make`, in the mode `k`), copy the
handle `h`, move from the handle `h` into a new handle, and destroy the handle
`h`.  Only owning handles are considered. -/
inductive Op (κ : Type) where
  | make (k : κ)
  | copy (h : Nat)
  | move (h : Nat)
  | drop (h : Nat)
deriving DecidableEq, Repr

/-- The two halves of a token-issuing member function: the blocking
acquisition, which yields the deleter state, and the deleter itself. -/
structure Iface (ρ δ κ : Type) where
  acquire : κ → ρ → Option (ρ × δ)
  deleter : δ → ρ → Option ρ

/-- The state before any token was created. -/
def Heap.init {ρ δ : Type} (r : ρ) : Heap ρ δ :=
  { res := r, nctrl := 0, nhandle := 0, ctrls := [], handles := [], released := [] }

/-- The handle with identity `h`, when it is alive. -/
def Heap.handle? {ρ δ : Type} (w : Heap ρ δ) (h : Nat) : Option Handle :=
  w.handles.find? fun x => x.id == h

/-- Whether some live handle owns the control block `c`: its use count is not
zero. -/
def Heap.owned {ρ δ : Type} (w : Heap ρ δ) (c : Nat) : Bool :=
  w.handles.any fun x => x.owns == some c

/-- Modelled from the spec: one step of the handle machine.
* `make k`: the acquisition completes (else the step does not), a control
  block is created around the deleter and one handle owning it is returned.
* `copy h`: a new handle shares what `h` owns.
* `move h`: a new handle takes over what `h` owns and `h` is left empty.
* `drop h`: `h` is destroyed; when it was the last owner of its control block
  the callback runs and the block is gone ("runs the matching release exactly
  once on scope exit").
A step on a handle that is not alive is no step of a program (`none`). -/
def Heap.step {ρ δ κ : Type} (I : Iface ρ δ κ) (w : Heap ρ δ) : Op κ → Option (Heap ρ δ)
  | .make k =>
    (I.acquire k w.res).map fun rd =>
      { w with
        res := rd.1
        nctrl := w.nctrl + 1
        nhandle := w.nhandle + 1
        ctrls := { id := w.nctrl, del := rd.2 } :: w.ctrls
        handles := { id := w.nhandle, owns := some w.nctrl } :: w.handles }
  | .copy h =>
    (w.handle? h).map fun hd =>
      { w with
        nhandle := w.nhandle + 1
        handles := { id := w.nhandle, owns := hd.owns } :: w.handles }
  | .move h =>
    (w.handle? h).map fun hd =>
      { w with
        nhandle := w.nhandle + 1
        handles := { id := w.nhandle, owns := hd.owns } ::
          w.handles.map fun x => if x.id == h then { x with owns := none } else x }
  | .drop h =>
    match w.handle? h with
    | none => none
    | some hd =>
      let rest := w.handles.eraseP fun x => x.id == h
      match hd.owns with
      | none => some { w with handles := rest }
      | some c =>
        if rest.any fun x => x.owns == some c then
          some { w with handles := rest }
        else
          match w.ctrls.find? fun b => b.id == c with
          | none => none
          | some b =>
            (I.deleter b.del w.res).map fun r =>
              { w with
                res := r
                ctrls := w.ctrls.eraseP fun x => x.id == c
                handles := rest
                released := c :: w.released }

/-- Modelled from the spec: a finite sequence of steps of the handle machine,
each of which has to complete. -/
def Heap.run {ρ δ κ : Type} (I : Iface ρ δ κ) : Heap ρ δ → List (Op κ) → Option (Heap ρ δ)
  | w, [] => some w
  | w, op :: ops => (w.step I op).bind fun w' => Heap.run I w' ops

/-- The deleter states of the live tokens. -/
def Heap.live {ρ δ : Type} (w : Heap ρ δ) : List δ :=
  w.ctrls.map Ctrl.del

end fwd

namespace sys

open fwd

/-- Tokens of a `sys::mutex`: `key()` and the deleter of what it returns. -/
def mutex.iface (e : Env) : Iface (mutex × Out) MutexKey Unit where
  acquire := fun _ r => (r.1.key e).map fun mk => ((mk.1, r.2), mk.2)
  deleter := fun k r => k.deleter e r.1 r.2

/-- Tokens of a `sys::rwlock`: `reader()`, `writer()` and the deleter of what
they return. -/
def rwlock.iface (e : Env) : Iface (rwlock × Out) RwKey Mode where
  acquire := fun m r =>
    Option.map (fun (lk : rwlock × RwKey) => ((lk.1, r.2), lk.2))
      (match m with
        | .Reader => r.1.reader e
        | .Writer => r.1.writer e)
  deleter := fun k r => k.deleter e r.1 r.2

/-- Tokens of a `sys::exclusive_ptr`: `reader()`, `writer()` and the end of
what they return. -/
def exclusive_ptr.iface (e : Env) : Iface (exclusive_ptr × Out) Token Mode where
  acquire := fun m r =>
    Option.map (fun (pt : exclusive_ptr × Token) => ((pt.1, r.2), pt.2))
      (match m with
        | .Reader => r.1.reader e
        | .Writer => r.1.writer e)
  deleter := fun t r => t.deleter e r.1 r.2

/-- The number of live reader tokens of a guarded pointer. -/
def readers {ρ : Type} (w : Heap ρ Token) : Nat :=
  w.live.countP fun t => t.key.mode = .Reader

/-- The number of live writer tokens of a guarded pointer. -/
def writers {ρ : Type} (w : Heap ρ Token) : Nat :=
  w.live.countP fun t => t.key.mode = .Writer

/-- The pointer a token handle delivers (`operator->` of the `shared_ptr`):
the stored pointer of the control block it owns. -/
def deliver {ρ : Type} (w : Heap ρ Token) (h : Nat) : Option Ptr :=
  (w.handle? h).bind fun hd =>
    hd.owns.bind fun c => (w.ctrls.find? fun b => b.id == c).map fun b => b.del.that

/-- `exclusive_ptr::get()` in a state with tokens around. -/
def get (w : Heap (exclusive_ptr × Out) Token) : Ptr × Heap (exclusive_ptr × Out) Token :=
  ((w.res.1.get).1, { w with res := ((w.res.1.get).2, w.res.2) })

end sys

/-! ## `time.cpp`: `env::date::operator()` -/

namespace fmt

/-- `fmt::date`, that is `std::tm`: the nine fields of its `table`. -/
structure date where
  tm_year : Int
  tm_mon : Int
  tm_mday : Int
  tm_wday : Int
  tm_yday : Int
  tm_hour : Int
  tm_min : Int
  tm_sec : Int
  tm_isdst : Int
deriving DecidableEq, Repr

/-- `fmt::to_string(std::string_view const&)` of `fmt.hpp`:
`std::string(s.data(), s.size())`, the same characters. -/
def to_string (s : List Char) : List Char := s

end fmt

namespace env

/-- The C library behind `std::strftime`, taken as a parameter: `expand d f`
is the text that the format `f` stands for at the date `d` (without the
terminating NUL), and `junk` is what an unsuccessful call leaves in the
array. -/
structure Libc where
  expand : fmt.date → List Char → List Char
  junk : List Char → fmt.date → List Char → List Char

/-- `std::string::resize(n, c)`: cut to `n` characters or pad with `c`. -/
def resize (s : List Char) (n : Nat) (c : Char) : List Char :=
  s.take n ++ List.replicate (n - s.length) c

/-- `std::strftime(s, max, format, tm)` as the C standard has it: when the
expansion and its terminating NUL fit into `max` characters they are written
to the front of the array and the number of characters without the NUL is
returned; otherwise 0 is returned and the contents of the array are
indeterminate.  The array keeps its size. -/
def strftime (L : Libc) (buf : List Char) (max : Nat) (format : List Char) (d : fmt.date) :
    Nat × List Char :=
  if (L.expand d format).length + 1 ≤ max then
    ((L.expand d format).length,
      L.expand d format ++ [Char.ofNat 0] ++ buf.drop ((L.expand d format).length + 1))
  else
    (0, resize (L.junk buf d format) buf.length (Char.ofNat 0))

/-- The loop `for (int n = 2; n; --n)` of `date::operator()`, on the counter
`n` and the buffer: call `strftime` on the whole buffer; on a positive result
`buf.resize(sz); break;`, else double the buffer, filling with NUL. -/
def date.loop (L : Libc) (d : fmt.date) (format : List Char) : Nat → List Char → List Char
  | 0, buf => buf
  | n + 1, buf =>
    if 0 < (strftime L buf buf.length format d).1 then
      resize (strftime L buf buf.length format d).2 (strftime L buf buf.length format d).1
        (Char.ofNat 0)
    else
      date.loop L d format n
        (resize (strftime L buf buf.length format d).2 (buf.length * 2) (Char.ofNat 0))

/-- `env::date::operator()(format)`.  `terminated` is the value of
`fmt::terminated(format)` (its definition is not among the sources); when it
is false the body runs on the copy `fmt::to_string(format)`, a `std::string`,
which is terminated.  The body starts from `fmt::string buf(8, 0)` and returns
the buffer after the loop. -/
def date.call (L : Libc) (d : fmt.date) (format : List Char) (terminated : Bool) : List Char :=
  if !terminated then
    date.loop L d (fmt.to_string format) 2 (List.replicate 8 (Char.ofNat 0))
  else
    date.loop L d format 2 (List.replicate 8 (Char.ofNat 0))

/-- The first second of 1970, a Thursday. -/
def epoch : fmt.date :=
  { tm_year := 70, tm_mon := 0, tm_mday := 1, tm_wday := 4, tm_yday := 0,
    tm_hour := 0, tm_min := 0, tm_sec := 0, tm_isdst := 0 }

/-- A C library in the "C" locale as far as `%c` and `%R` at `epoch` go,
which leaves the array alone when it fails. -/
def sampleLibc : Libc :=
  { expand := fun _ f =>
      if f = "%c".toList then "Thu Jan  1 00:00:00 1970".toList
      else if f = "%R".toList then "00:00".toList
      else f
    junk := fun buf _ _ => buf }

end env

/-! ## Invariants

The predicates below are used in statements and proofs only. -/

namespace fwd

/-- Well-formedness of the handle machine: identities are fresh and distinct,
a handle owns only live control blocks, every live control block has an
owner, and the control blocks whose callback has run are exactly the ones
that were created and are no longer live, each listed once. -/
structure Heap.WF {ρ δ : Type} (w : Heap ρ δ) : Prop where
  ctrl_lt : ∀ b ∈ w.ctrls, b.id < w.nctrl
  ctrl_nodup : (w.ctrls.map Ctrl.id).Nodup
  handle_lt : ∀ h ∈ w.handles, h.id < w.nhandle
  handle_nodup : (w.handles.map Handle.id).Nodup
  owns_live : ∀ h ∈ w.handles, ∀ c, h.owns = some c → c ∈ w.ctrls.map Ctrl.id
  live_owned : ∀ b ∈ w.ctrls, ∃ h ∈ w.handles, h.owns = some b.id
  released_lt : ∀ c ∈ w.released, c < w.nctrl
  released_nodup : w.released.Nodup
  released_dead : ∀ c ∈ w.released, c ∉ w.ctrls.map Ctrl.id
  dead_released : ∀ c < w.nctrl, c ∉ w.ctrls.map Ctrl.id → c ∈ w.released

/-- The release discipline of the tokens of an interface `I` started on `r0`,
where `count` reads the release counter of the lock.  In every state reached
by token creations, handle copies, moves and destructions:
* the releases counted on the lock are the callbacks that have run;
* the callback of a token has run no time while a handle owns the token and
  exactly once after;
* destroying a live handle completes, and it releases (the token `c` the
  handle owns) exactly when the handle owns a token that no other handle owns;
* copying and moving a live handle complete and release nothing;
* moving the only handle of a token and then destroying the moved-from and
  the moved-to handle releases nothing at the first destruction and the token,
  once, at the second. -/
def ReleasedOnce {ρ δ κ : Type} (I : Iface ρ δ κ) (count : ρ → Nat) (r0 : ρ) : Prop :=
  ∀ (ops : List (Op κ)) (w : Heap ρ δ), Heap.run I (Heap.init r0) ops = some w →
    count w.res = w.released.length ∧
    (∀ c, c < w.nctrl → w.released.count c = if w.owned c then 0 else 1) ∧
    (∀ hd ∈ w.handles, ∃ w', w.step I (.drop hd.id) = some w' ∧
      w'.released =
        match hd.owns with
        | none => w.released
        | some c => if w'.owned c then w.released else c :: w.released) ∧
    (∀ hd ∈ w.handles, ∃ w1 w2,
      w.step I (.copy hd.id) = some w1 ∧ w1.released = w.released ∧
      w.step I (.move hd.id) = some w2 ∧ w2.released = w.released) ∧
    (∀ hd ∈ w.handles, ∀ c, hd.owns = some c →
      (∀ x ∈ w.handles, x.owns = some c → x = hd) →
      ∃ w1 w2 w3,
        w.step I (.move hd.id) = some w1 ∧ w1.step I (.drop hd.id) = some w2 ∧
        w2.step I (.drop w.nhandle) = some w3 ∧
        w1.released = w.released ∧ w2.released = w.released ∧
        w3.released = c :: w.released)

end fwd

namespace sys

/-- A `sys::rwlock` agrees with the keys that are live on it: every key stores
the address of the lock, the acquisitions exceed the releases by the number of
live keys, and the lock state is the one the live keys amount to. -/
def RwInv (l : rwlock) (ks : List RwKey) : Prop :=
  (∀ k ∈ ks, k.that = l.this) ∧ l.prim.acquired = l.prim.released + ks.length ∧
  match l.prim.state with
  | .Unlocked => ks = []
  | .Shared n => ks.length = n ∧ 1 ≤ n ∧ ∀ k ∈ ks, k.mode = .Reader
  | .Exclusive => ∃ k, ks = [k] ∧ k.mode = .Writer

/-- A `sys::rwlock` with the keys live on it, after `a` key creations and `b`
key destructions; nothing was reported through `sys::warn`. -/
def RwWorldInv (out : Out) (a b : Nat) (r : rwlock × Out) (ks : List RwKey) : Prop :=
  r.2 = out ∧ r.1.prim.acquired = a ∧ r.1.prim.released = b ∧ RwInv r.1 ks

/-- A guarded pointer with the tokens live on it, after `a` token creations
and `b` token ends: it still holds the pointer `ptr` it was built with, as
does every token, nothing was reported through `sys::warn`, and its lock
agrees with the keys of the tokens. -/
def ExInv (ptr : Ptr) (out : Out) (a b : Nat) (r : exclusive_ptr × Out) (ts : List Token) :
    Prop :=
  r.1.that = ptr ∧ r.2 = out ∧ r.1.lock.prim.acquired = a ∧ r.1.lock.prim.released = b ∧
  (∀ t ∈ ts, t.that = ptr) ∧ RwInv r.1.lock (ts.map Token.key)

/-- A `sys::mutex` agrees with the keys live on it: it is held exactly when
there is a key, there is at most one, and the counters differ by the number of
live keys. -/
def MxInv (out : Out) (a b : Nat) (r : mutex × Out) (ks : List MutexKey) : Prop :=
  r.2 = out ∧ r.1.prim.acquired = a ∧ r.1.prim.released = b ∧ a = b + ks.length ∧
  (∀ k ∈ ks, k.that = r.1.this) ∧
  ((r.1.prim.held = false ∧ ks = []) ∨ (r.1.prim.held = true ∧ ∃ k, ks = [k]))

/-! ## Sample inputs -/

/-- A POSIX debug build with `sys::debug` set, whose `impl::warn` appends the
message to the report. -/
def envPosix : Env :=
  { NDEBUG := false, WIN32 := false, debug := true,
    showWhere := fun f l g => f ++ ":" ++ toString l ++ " " ++ g,
    warnImpl := fun m o => some (o ++ [m]) }

/-- A Windows debug build with `sys::debug` set. -/
def envWin : Env := { envPosix with WIN32 := true }

/-- A debug build in which `sys::debug` is not set. -/
def envQuiet : Env := { envPosix with debug := false }

/-- A guarded pointer to the object at address 7, its lock at address 100,
as its constructor leaves it. -/
def sampleGuard : exclusive_ptr × Out :=
  ({ lock := { this := 100, prim := { state := .Unlocked, acquired := 0, released := 0 } },
     that := 7 }, [])

/-- The state of `sampleGuard` after a reader token was created and ended and
a writer token was created. -/
def sampleWriting : fwd.Heap (exclusive_ptr × Out) Token :=
  { res := ({ lock := { this := 100,
                        prim := { state := .Exclusive, acquired := 2, released := 1 } },
              that := 7 }, [])
    nctrl := 2
    nhandle := 2
    ctrls := [{ id := 1, del := { that := 7, key := { that := 100, mode := .Writer } } }]
    handles := [{ id := 1, owns := some 1 }]
    released := [0] }

/-- The state of `sampleGuard` after two reader tokens were created, the first
was moved to a new handle, and all three handles were destroyed. -/
def sampleDone : fwd.Heap (exclusive_ptr × Out) Token :=
  { res := ({ lock := { this := 100,
                        prim := { state := .Unlocked, acquired := 2, released := 2 } },
              that := 7 }, [])
    nctrl := 2
    nhandle := 3
    ctrls := []
    handles := []
    released := [1, 0] }

/-- The state of `sampleGuard` after one reader token was created. -/
def sampleReading : fwd.Heap (exclusive_ptr × Out) Token :=
  { res := ({ lock := { this := 100,
                        prim := { state := .Shared 1, acquired := 1, released := 0 } },
              that := 7 }, [])
    nctrl := 1
    nhandle := 1
    ctrls := [{ id := 0, del := { that := 7, key := { that := 100, mode := .Reader } } }]
    handles := [{ id := 0, owns := some 0 }]
    released := [] }

/-- The self-guarded object at address 7, its lock at address 100, as its
constructor leaves it. -/
def sampleSelf : exclusive := { that := sampleGuard.1 }

/-- A `sys::rwlock` at address 100 on Windows with two reader keys live. -/
def sampleShared : fwd.Heap (rwlock × Out) RwKey :=
  { res := ({ this := 100, prim := { state := .Shared 2, acquired := 2, released := 0 } }, [])
    nctrl := 2
    nhandle := 2
    ctrls := [{ id := 1, del := { that := 100, mode := .Reader } },
              { id := 0, del := { that := 100, mode := .Reader } }]
    handles := [{ id := 1, owns := some 1 }, { id := 0, owns := some 0 }]
    released := [] }

/-- A `sys::mutex` at address 200 with its second key live, the first one
destroyed. -/
def sampleHeld : fwd.Heap (mutex × Out) MutexKey :=
  { res := ({ this := 200, prim := { held := true, acquired := 2, released := 1 } }, [])
    nctrl := 2
    nhandle := 2
    ctrls := [{ id := 1, del := { that := 200 } }]
    handles := [{ id := 1, owns := some 1 }]
    released := [0] }

end sys

/-! ## `fmt.hpp`: `fmt::replace` and `fmt::split` -/

/-- How a modelled loop with a bound on its iterations ends: with a value,
by an exception (`std::out_of_range`), not within the bound, or with the
program aborted by a failed `assert` of `<cassert>`. -/
inductive Res (α : Type) where
  | ok (a : α)
  | thrown
  | pending
  | aborted
deriving DecidableEq, Repr

namespace std

/-- The search behind `find`: the first index, counted from `i`, at which `s`
starts in the rest `l` of the string. -/
def findAt (s : List Char) : List Char → Nat → Option Nat
  | [], i => if s = [] then some i else none
  | c :: cs, i => if s.isPrefixOf (c :: cs) then some i else findAt s cs (i + 1)

/-- `std::string::find(s, pos, n)` with `n` the length of `s`: the lowest
index `at ≥ pos` at which `s` starts in `buf`, `none` for `npos`.  A string is
shorter than `npos`, so `npos` is no index. -/
def find (buf s : List Char) (pos : Nat) : Option Nat :=
  if buf.length < pos then none else findAt s (buf.drop pos) pos

/-- `std::string::replace(pos, n, r, m)` with `m` the length of `r`: the `n`
characters from `pos` on (fewer at the end of the string) give way to `r`;
`std::out_of_range` when `pos` is beyond the end. -/
def replace (buf : List Char) (pos n : Nat) (r : List Char) : Option (List Char) :=
  if buf.length < pos then none else some (buf.take pos ++ r ++ buf.drop (pos + n))

end std

namespace fmt

/-- The loop of `fmt::replace` at the test `at != end`, with `n` iterations
allowed: while `at` is an index, `buf.replace(at, s.size(), r.data(), r.size())`
and `at = buf.find(s.data(), at + r.size(), s.size())`. -/
def replaceLoop (s r : List Char) : Nat → List Char → Option Nat → Res (List Char)
  | _, buf, none => .ok buf
  | 0, _, some _ => .pending
  | n + 1, buf, some i =>
    match std.replace buf i s.length r with
    | none => .thrown
    | some b => replaceLoop s r n b (std.find b s (i + r.length))

/-- `fmt::replace(buf, s, r)`, the loop started with
`at = buf.find(s.data(), 0, s.size())`, with `n` iterations allowed; the
result is the final `buf`. -/
def replace (n : Nat) (buf s r : List Char) : Res (List Char) :=
  replaceLoop s r n buf (std.find buf s 0)

/-- The single left-to-right pass of C14, in its words: scanning `buf` from
the left, an occurrence of `s` at the current place is replaced by `r` and the
scan goes on behind the occurrence; any other character is kept. -/
def replaceSpec (s r : List Char) (buf : List Char) : List Char :=
  match buf with
  | [] => []
  | c :: cs =>
    if s ≠ [] ∧ s.isPrefixOf (c :: cs) = true then
      r ++ replaceSpec s r ((c :: cs).drop s.length)
    else
      c :: replaceSpec s r cs
termination_by buf.length
decreasing_by
  · rename_i h
    have : 0 < s.length := List.length_pos.mpr h.1
    simp only [List.length_drop, List.length_cons]
    omega
  · simp

end fmt

namespace std

/-- The search behind `find_first_of` and `find_first_not_of`: the first
index, counted from `i`, of a character of `l` for which `p` holds. -/
def findIdx (p : Char → Bool) : List Char → Nat → Option Nat
  | [], _ => none
  | c :: cs, i => if p c then some i else findIdx p cs (i + 1)

/-- `std::string_view::find_first_of(del, pos)`: the lowest index `≥ pos` of a
character of `s` that occurs in `del`; `none` for `npos`, which is also what
the position `npos` gives. -/
def find_first_of (s del : List Char) (pos : Option Nat) : Option Nat :=
  match pos with
  | none => none
  | some p => findIdx (fun c => del.contains c) (s.drop p) p

/-- `std::string_view::find_first_not_of(del, pos)`: the lowest index `≥ pos`
of a character of `s` that does not occur in `del`; `none` for `npos`. -/
def find_first_not_of (s del : List Char) (pos : Option Nat) : Option Nat :=
  match pos with
  | none => none
  | some p => findIdx (fun c => !del.contains c) (s.drop p) p

/-- The unsigned difference `to - at` of two `size_type` values as a count
for `substr`: `none` stands for a count that reaches the end of every string,
which is what `npos - at` is and what a difference that wraps around is. -/
def count (to_ : Option Nat) (a : Nat) : Option Nat :=
  match to_ with
  | none => none
  | some t => if t < a then none else some (t - a)

/-- `std::string_view::substr(pos, n)`: the `n` characters from `pos` on, or
as many as there are; `std::out_of_range` (`none`) when `pos` is beyond the
end. -/
def substr (s : List Char) (pos : Nat) (n : Option Nat) : Option (List Char) :=
  if s.length < pos then none
  else
    match n with
    | none => some (s.drop pos)
    | some k => some ((s.drop pos).take k)

/-- The character `view[view.size()]` of `view = s.substr(pos, n)`: the one
stored behind the substring, which is the character of `s` at `pos + n`, or,
when the substring reaches the end of `s`, the character `term` stored behind
the last one of `s` (`s.data()[s.size()]`); the index is one beyond the view
itself, so the read is the one of its buffer. -/
def past (s : List Char) (term : Char) (pos : Nat) (n : Option Nat) : Char :=
  match n with
  | none => term
  | some k => (s.drop (pos + k)).headD term

/-- The `assert(x)` of `<cassert>`: nothing when `NDEBUG` is defined or `x`
holds, else the program is aborted (`none`). -/
def assert (ndebug x : Bool) : Option Unit :=
  if ndebug || x then some () else none

end std

namespace fmt

/-- The constructor `fmt::string_view::string_view(std::string_view const&
view)` (`fmt.hpp:97-100`).  It has no member initialiser, so the
`std::string_view` base is default-constructed: the new view is empty,
whatever `view` holds.  Its body is `assert('\0' == view[view.size()])`, with
the `assert` of `<cassert>` that the header includes; `past` is the character
`view[view.size()]`.  `none`: the program is aborted. -/
def string_view (ndebug : Bool) (_view : List Char) (past : Char) : Option (List Char) :=
  match std.assert ndebug (Char.ofNat 0 == past) with
  | none => none
  | some _ => some []

/-- The loop of `fmt::split` at the test `at != end`, with `n` iterations
allowed; the state is `at`, `to` (here `to_`) and the tokens so far.  Body:
`if (to != at) tok.emplace_back(s.substr(at, to - at));` and
`at = s.find_first_not_of(del, to);`, step:
`to = s.find_first_of(del, at)`.  The element type of `tok` is
`fmt::string_view`, so `emplace_back` runs the converting constructor
`string_view` on the substring.  `ndebug` says whether `NDEBUG` is defined
and `term` is the character stored behind the last one of `s`. -/
def splitLoop (ndebug : Bool) (term : Char) (s del : List Char) :
    Nat → Option Nat → Option Nat → List (List Char) → Res (List (List Char))
  | _, none, _, tok => .ok tok
  | 0, some _, _, _ => .pending
  | n + 1, some a, to_, tok =>
    if to_ ≠ some a then
      match std.substr s a (std.count to_ a) with
      | none => .thrown
      | some t =>
        match string_view ndebug t (std.past s term a (std.count to_ a)) with
        | none => .aborted
        | some v =>
          splitLoop ndebug term s del n (std.find_first_not_of s del to_)
            (std.find_first_of s del (std.find_first_not_of s del to_)) (tok ++ [v])
    else
      splitLoop ndebug term s del n (std.find_first_not_of s del to_)
        (std.find_first_of s del (std.find_first_not_of s del to_)) tok

/-- `fmt::split(s, del)`: the loop started with `at = 0`,
`to = s.find_first_of(del)` and no token, with `n` iterations allowed. -/
def split (ndebug : Bool) (term : Char) (n : Nat) (s del : List Char) :
    Res (List (List Char)) :=
  splitLoop ndebug term s del n (some 0) (std.find_first_of s del (some 0)) []

/-- The delimiter split of C11, in its words: the maximal runs of characters
of `s` that are not in `del`, in order of occurrence. -/
def runs (del : List Char) (s : List Char) : List (List Char) :=
  match s with
  | [] => []
  | c :: cs =>
    if del.contains c then runs del cs
    else
      (c :: cs).takeWhile (fun x => !del.contains x) ::
        runs del ((c :: cs).dropWhile fun x => !del.contains x)
termination_by s.length
decreasing_by
  · simp
  · rename_i h
    simp only [List.dropWhile_cons, h, Bool.not_false, if_true, List.length_cons]
    have := (List.dropWhile_sublist (fun x => !del.contains x) (l := cs)).length_le
    omega

/-- The format list of `test_unit(time)`. -/
def sampleFormats : List Char := "%n %t %c %x %X %D %F %R %T %Z %%".toList

end fmt

/-! ## `exe.cpp`: `env::exe::get` -/

namespace env
namespace exe

/-- The loop of `env::exe::get(fmt::span args)` that builds `command`: for
each argument, `spaces = fmt::any_of(arg)`, then `"\""` when `spaces`, the
argument, and `"\""` again when `spaces`.  `any_of` is `fmt::any_of`, whose
definition is not among the sources. -/
def command (any_of : List Char → Bool) (args : List (List Char)) : List Char :=
  args.foldl
    (fun command arg =>
      let spaces := any_of arg
      let opened := if spaces then command ++ ['"'] else command
      let named := opened ++ arg
      if spaces then named ++ ['"'] else named)
    []

/-- `env::exe::get(fmt::span args)`: the command is opened with
`env::file::open(command, env::file::ex)` and its output read line by line;
`shell` stands for the two (neither is among the sources), from the command
line to the lines. -/
def get (shell : List Char → List (List Char)) (any_of : List Char → Bool)
    (args : List (List Char)) : List (List Char) :=
  shell (command any_of args)

/-- `env::exe::echo(line)`: `return get({ "echo", line });`. -/
def echo (shell : List Char → List (List Char)) (any_of : List Char → Bool)
    (line : List Char) : List (List Char) :=
  get shell any_of ["echo".toList, line]

/-- The command line of C12, in its words: the arguments in their order,
separated by a space, an argument in double quotes exactly when it contains
white space. -/
def commandSpec (args : List (List Char)) : List Char :=
  " ".toList.intercalate
    (args.map fun arg => if arg.any Char.isWhitespace then ['"'] ++ arg ++ ['"'] else arg)

/-- Whether an argument contains white space, the reading of `fmt::any_of`
that C12 gives. -/
def anySpace (arg : List Char) : Bool := arg.any Char.isWhitespace

end exe
end env

/-! ## `dig.cpp`: integers as text -/

namespace std

/-- `std::errc` as far as `<charconv>` uses it; `noerr` is the value
initialized `std::errc`, which `err.hpp` calls `sys::noerr`. -/
inductive errc where
  | noerr
  | invalid_argument
  | result_out_of_range
  | value_too_large
deriving DecidableEq, Repr

/-- An integer type by its range. -/
structure IntType where
  min : Int
  max : Int
deriving DecidableEq, Repr

/-- `long`: 64 bits, 32 bits under `_WIN32`. -/
def long (e : Env) : IntType :=
  if e.WIN32 then { min := -(2 ^ 31), max := 2 ^ 31 - 1 }
  else { min := -(2 ^ 63), max := 2 ^ 63 - 1 }

/-- `long long`: 64 bits. -/
def llong : IntType := { min := -(2 ^ 63), max := 2 ^ 63 - 1 }

/-- `unsigned long`: 64 bits, 32 bits under `_WIN32`. -/
def ulong (e : Env) : IntType :=
  if e.WIN32 then { min := 0, max := 2 ^ 32 - 1 } else { min := 0, max := 2 ^ 64 - 1 }

/-- `unsigned long long`: 64 bits. -/
def ullong : IntType := { min := 0, max := 2 ^ 64 - 1 }

/-- The character of the digit `d`: `0` to `9`, then `a` to `z`. -/
def digitChar (d : Nat) : Char :=
  if d < 10 then Char.ofNat (48 + d) else Char.ofNat (87 + d)

/-- The digit a character stands for: `0` to `9`, and `a` to `z` or `A` to
`Z` for 10 to 35. -/
def digitVal (c : Char) : Option Nat :=
  if 48 ≤ c.toNat ∧ c.toNat ≤ 57 then some (c.toNat - 48)
  else if 97 ≤ c.toNat ∧ c.toNat ≤ 122 then some (c.toNat - 87)
  else if 65 ≤ c.toNat ∧ c.toNat ≤ 90 then some (c.toNat - 55)
  else none

/-- The digits of `n` in `base`, least significant first, by at most `fuel`
divisions. -/
def digitsRev (base : Nat) : Nat → Nat → List Char
  | 0, _ => []
  | fuel + 1, n =>
    if n < base then [digitChar n]
    else digitChar (n % base) :: digitsRev base fuel (n / base)

/-- The digits of `n` in `base`, most significant first, without leading
zeros (`0` for `n = 0`). -/
def digits (base n : Nat) : List Char :=
  (digitsRev base (n + 1) n).reverse

/-- The text `std::to_chars` produces for `value` in `base`: a minus sign for
a negative value, then the digits of the magnitude. -/
def repr (value : Int) (base : Nat) : List Char :=
  if value < 0 then '-' :: digits base value.natAbs else digits base value.natAbs

/-- What `std::to_chars` returns, with the array as it leaves it: `ptr` is
counted from `first`. -/
structure to_chars_result where
  ptr : Nat
  ec : errc
  buf : List Char
deriving DecidableEq, Repr

/-- `std::to_chars(first, last, value, base)` on the array `buf`: when the
text fits it is written to the front and `ptr` points behind it; otherwise
`ec` is `value_too_large`, `ptr` is `last` and the array is left in an
unspecified state, `junk buf`, of the same size. -/
def to_chars (junk : List Char → List Char) (buf : List Char) (value : Int) (base : Nat) :
    to_chars_result :=
  if (repr value base).length ≤ buf.length then
    { ptr := (repr value base).length, ec := .noerr,
      buf := repr value base ++ buf.drop (repr value base).length }
  else
    { ptr := buf.length, ec := .value_too_large,
      buf := env.resize (junk buf) buf.length (Char.ofNat 0) }

/-- The value of a run of digits read from the left, `acc` being the value
read so far; reading stops at the first character that is no digit of the
base.  The result is the value and the number of characters read. -/
def readDigits (base : Nat) : List Char → Nat → Nat → Nat × Nat
  | [], acc, k => (acc, k)
  | c :: cs, acc, k =>
    match digitVal c with
    | none => (acc, k)
    | some d => if d < base then readDigits base cs (acc * base + d) (k + 1) else (acc, k)

/-- What `std::from_chars` returns, with `value` as it leaves it. -/
structure from_chars_result where
  ptr : Nat
  ec : errc
  value : Int
deriving DecidableEq, Repr

/-- `std::from_chars(first, last, value, base)` for the integer type `T` on
the text `u`: a minus sign is read when `T` is signed, then the longest run of
digits of the base.  Without a digit `ec` is `invalid_argument`; with a value
outside `T` it is `result_out_of_range`; in both cases `value` is left as it
was. -/
def from_chars (T : IntType) (u : List Char) (value : Int) (base : Nat) : from_chars_result :=
  match u with
  | '-' :: cs =>
    if T.min < 0 then
      if (readDigits base cs 0 0).2 = 0 then { ptr := 0, ec := .invalid_argument, value := value }
      else if -((readDigits base cs 0 0).1 : Int) < T.min then
        { ptr := (readDigits base cs 0 0).2 + 1, ec := .result_out_of_range, value := value }
      else
        { ptr := (readDigits base cs 0 0).2 + 1, ec := .noerr,
          value := -((readDigits base cs 0 0).1 : Int) }
    else { ptr := 0, ec := .invalid_argument, value := value }
  | _ =>
    if (readDigits base u 0 0).2 = 0 then { ptr := 0, ec := .invalid_argument, value := value }
    else if T.max < ((readDigits base u 0 0).1 : Int) then
      { ptr := (readDigits base u 0 0).2, ec := .result_out_of_range, value := value }
    else
      { ptr := (readDigits base u 0 0).2, ec := .noerr, value := ((readDigits base u 0 0).1 : Int) }

end std

namespace fmt

/-- `from_base<T>(value, base)` of `dig.cpp`: `std::to_chars` on a string of
20 NUL characters.  On `value_too_large` the string is resized to twice its
size and `continue` goes to the test of the `do ... while (0)`, which ends
the loop; on any other error `sys::warn(here, code.ec)`; without `continue`
the string is cut at `code.ptr`.  `showErrc` prints a `std::errc` (the
`operator<<` is only declared in the sources). -/
def from_base (e : Env) (showErrc : std.errc → String) (junk : List Char → List Char)
    (value : Int) (base : Nat) (out : Out) : Option (List Char × Out) :=
  let s := List.replicate 20 (Char.ofNat 0)
  let code := std.to_chars junk s value base
  if code.ec ≠ .noerr then
    if code.ec = .value_too_large then
      some (env.resize code.buf (2 * s.length) (Char.ofNat 0), out)
    else
      (sys.warn e (fmt.err e "dig.cpp" 54 "from_base" (showErrc code.ec)) out).map fun bo =>
        (env.resize code.buf code.ptr (Char.ofNat 0), bo.2)
  else
    some (env.resize code.buf code.ptr (Char.ofNat 0), out)

/-- `to_base<T>(u, base)` of `dig.cpp`: `std::from_chars` into a `value` that
starts as `static_cast<T>(std::nan(""))`, here `nan` (the conversion is
undefined, so any value); on an error `sys::warn(here, code.ec)`; `value` is
returned in every case. -/
def to_base (e : Env) (showErrc : std.errc → String) (T : std.IntType) (nan : Int)
    (u : List Char) (base : Nat) (out : Out) : Option (Int × Out) :=
  let code := std.from_chars T u nan base
  if code.ec ≠ .noerr then
    (sys.warn e (fmt.err e "dig.cpp" 33 "to_base" (showErrc code.ec)) out).map fun bo =>
      (code.value, bo.2)
  else
    some (code.value, out)

/-- `fmt::to_string(long value, int base)`: `from_base<long>(value, base)`. -/
def to_string_long (e : Env) (showErrc : std.errc → String) (junk : List Char → List Char)
    (value : Int) (base : Nat) (out : Out) : Option (List Char × Out) :=
  from_base e showErrc junk value base out

/-- `fmt::to_string(long long value, int base)`. -/
def to_string_llong (e : Env) (showErrc : std.errc → String) (junk : List Char → List Char)
    (value : Int) (base : Nat) (out : Out) : Option (List Char × Out) :=
  from_base e showErrc junk value base out

/-- `fmt::to_string(unsigned long value, int base)`. -/
def to_string_ulong (e : Env) (showErrc : std.errc → String) (junk : List Char → List Char)
    (value : Int) (base : Nat) (out : Out) : Option (List Char × Out) :=
  from_base e showErrc junk value base out

/-- `fmt::to_string(unsigned long long value, int base)`. -/
def to_string_ullong (e : Env) (showErrc : std.errc → String) (junk : List Char → List Char)
    (value : Int) (base : Nat) (out : Out) : Option (List Char × Out) :=
  from_base e showErrc junk value base out

/-- `fmt::to_long(u, base)`: `to_base<long>(u, base)`. -/
def to_long (e : Env) (showErrc : std.errc → String) (nan : Int) (u : List Char) (base : Nat)
    (out : Out) : Option (Int × Out) :=
  to_base e showErrc (std.long e) nan u base out

/-- `fmt::to_llong(u, base)`: `to_base<long long>(u, base)`. -/
def to_llong (e : Env) (showErrc : std.errc → String) (nan : Int) (u : List Char) (base : Nat)
    (out : Out) : Option (Int × Out) :=
  to_base e showErrc std.llong nan u base out

/-- `fmt::to_ulong(u, base)`: `to_base<unsigned long>(u, base)`. -/
def to_ulong (e : Env) (showErrc : std.errc → String) (nan : Int) (u : List Char) (base : Nat)
    (out : Out) : Option (Int × Out) :=
  to_base e showErrc (std.ulong e) nan u base out

/-- `fmt::to_ullong(u, base)`: `to_base<unsigned long long>(u, base)`. -/
def to_ullong (e : Env) (showErrc : std.errc → String) (nan : Int) (u : List Char)
    (base : Nat) (out : Out) : Option (Int × Out) :=
  to_base e showErrc std.ullong nan u base out

/-- A printer of `std::errc` for the samples. -/
def sampleErrc : std.errc → String
  | .noerr => "noerr"
  | .invalid_argument => "invalid argument"
  | .result_out_of_range => "result out of range"
  | .value_too_large => "value too large"

end fmt


end OSpath

/-! # Lemmas and theorems -/

namespace OSpath

/-! ## The handle machine -/

namespace fwd

theorem perm_cons_eraseP_of_find {α : Type} (p : α → Bool) :
    ∀ (l : List α) (b : α), l.find? p = some b → l.Perm (b :: l.eraseP p)
  | [], b, h => by simp at h
  | a :: l, b, h => by
    by_cases hp : p a = true
    · simp [List.find?_cons, hp] at h
      subst h
      simp [List.eraseP_cons, hp]
    · simp [List.find?_cons, hp] at h
      have ih := perm_cons_eraseP_of_find p l b h
      simp only [List.eraseP_cons, hp]
      exact (List.Perm.cons a ih).trans (List.Perm.swap b a _)

theorem mem_iff_of_find {α : Type} {p : α → Bool} {l : List α} {a : α}
    (h : l.find? p = some a) (x : α) : x ∈ l ↔ x = a ∨ x ∈ l.eraseP p := by
  rw [(perm_cons_eraseP_of_find p l a h).mem_iff, List.mem_cons]

variable {ρ δ κ : Type}

/-- An invariant of the lock and the live tokens, indexed by the numbers of
tokens created and ended, is kept by every step as soon as the acquisition
and the deleter keep it. -/
theorem Heap.step_live (I : Iface ρ δ κ) (P : Nat → Nat → ρ → List δ → Prop)
    (hperm : ∀ a b r l l', l.Perm l' → P a b r l → P a b r l')
    (hacq : ∀ a b k r l r' d, P a b r l → I.acquire k r = some (r', d) → P (a + 1) b r' (d :: l))
    (hrel : ∀ a b r d l r', P a b r (d :: l) → I.deleter d r = some r' → P a (b + 1) r' l)
    (w w' : Heap ρ δ) (op : Op κ) (hP : P w.nctrl w.released.length w.res w.live)
    (hs : w.step I op = some w') :
    P w'.nctrl w'.released.length w'.res w'.live := by
  cases op with
  | make k =>
    simp only [Heap.step, Option.map_eq_some'] at hs
    obtain ⟨⟨r, d⟩, ha, rfl⟩ := hs
    exact hacq _ _ k _ _ _ _ hP ha
  | copy h =>
    simp only [Heap.step, Option.map_eq_some'] at hs
    obtain ⟨hd, _, rfl⟩ := hs
    exact hP
  | move h =>
    simp only [Heap.step, Option.map_eq_some'] at hs
    obtain ⟨hd, _, rfl⟩ := hs
    exact hP
  | drop h =>
    simp only [Heap.step] at hs
    split at hs
    · exact absurd hs (by simp)
    · rename_i hd hfind
      split at hs
      · cases hs; exact hP
      · rename_i c hc
        split at hs
        · cases hs; exact hP
        · split at hs
          · exact absurd hs (by simp)
          · rename_i b hb
            simp only [Option.map_eq_some'] at hs
            obtain ⟨r, hr, rfl⟩ := hs
            have hp := perm_cons_eraseP_of_find _ _ _ hb
            have hp' : w.live.Perm
                (b.del :: (w.ctrls.eraseP fun x => x.id == c).map Ctrl.del) := by
              simpa [Heap.live] using hp.map Ctrl.del
            exact hrel _ _ _ _ _ _ (hperm _ _ _ _ _ hp' hP) hr

theorem Heap.run_live (I : Iface ρ δ κ) (P : Nat → Nat → ρ → List δ → Prop)
    (hperm : ∀ a b r l l', l.Perm l' → P a b r l → P a b r l')
    (hacq : ∀ a b k r l r' d, P a b r l → I.acquire k r = some (r', d) → P (a + 1) b r' (d :: l))
    (hrel : ∀ a b r d l r', P a b r (d :: l) → I.deleter d r = some r' → P a (b + 1) r' l) :
    ∀ (ops : List (Op κ)) (w w' : Heap ρ δ), P w.nctrl w.released.length w.res w.live →
      Heap.run I w ops = some w' → P w'.nctrl w'.released.length w'.res w'.live
  | [], w, w', hP, h => by
    simp only [Heap.run, Option.some.injEq] at h
    subst h; exact hP
  | op :: ops, w, w', hP, h => by
    simp only [Heap.run, Option.bind_eq_some] at h
    obtain ⟨w1, h1, h2⟩ := h
    exact Heap.run_live I P hperm hacq hrel ops w1 w'
      (Heap.step_live I P hperm hacq hrel w w1 op hP h1) h2

theorem Heap.WF.wf_init (r : ρ) : (Heap.init r : Heap ρ δ).WF := by
  constructor <;> simp [Heap.init]

theorem Heap.handle_spec {w : Heap ρ δ} {h : Nat} {hd : Handle} (hf : w.handle? h = some hd) :
    hd ∈ w.handles ∧ hd.id = h := by
  unfold Heap.handle? at hf
  exact ⟨List.mem_of_find?_eq_some hf, by simpa using List.find?_some hf⟩

theorem Heap.WF.step_make {w : Heap ρ δ} (hw : w.WF) (r : ρ) (d : δ) :
    Heap.WF { w with
        res := r
        nctrl := w.nctrl + 1
        nhandle := w.nhandle + 1
        ctrls := { id := w.nctrl, del := d } :: w.ctrls
        handles := { id := w.nhandle, owns := some w.nctrl } :: w.handles } := by
  constructor
  · intro b hb
    simp only [List.mem_cons] at hb
    rcases hb with rfl | hb
    · simp
    · have := hw.ctrl_lt b hb
      simp only; omega
  · simp only [List.map_cons, List.nodup_cons]
    refine ⟨fun hmem => ?_, hw.ctrl_nodup⟩
    obtain ⟨b, hb, hid⟩ := List.mem_map.mp hmem
    have := hw.ctrl_lt b hb
    omega
  · intro h hh
    simp only [List.mem_cons] at hh
    rcases hh with rfl | hh
    · simp
    · have := hw.handle_lt h hh
      simp only; omega
  · simp only [List.map_cons, List.nodup_cons]
    refine ⟨fun hmem => ?_, hw.handle_nodup⟩
    obtain ⟨b, hb, hid⟩ := List.mem_map.mp hmem
    have := hw.handle_lt b hb
    omega
  · intro h hh c hc
    simp only [List.mem_cons] at hh
    rcases hh with rfl | hh
    · simp only [Option.some.injEq] at hc
      simp [hc]
    · simp only [List.map_cons, List.mem_cons]
      exact Or.inr (hw.owns_live h hh c hc)
  · intro b hb
    simp only [List.mem_cons] at hb
    rcases hb with rfl | hb
    · exact ⟨_, List.mem_cons_self _ _, rfl⟩
    · obtain ⟨h, hh, ho⟩ := hw.live_owned b hb
      exact ⟨h, List.mem_cons_of_mem _ hh, ho⟩
  · intro c hc
    have := hw.released_lt c hc
    simp only; omega
  · exact hw.released_nodup
  · intro c hc
    simp only [List.map_cons, List.mem_cons, not_or]
    exact ⟨by have := hw.released_lt c hc; omega, hw.released_dead c hc⟩
  · intro c hc hn
    simp only [List.map_cons, List.mem_cons, not_or] at hn
    exact hw.dead_released c (by simp only at hc; omega) hn.2


theorem Heap.WF.step_copy {w : Heap ρ δ} (hw : w.WF) {hd : Handle} (hm : hd ∈ w.handles) :
    Heap.WF { w with
        nhandle := w.nhandle + 1
        handles := { id := w.nhandle, owns := hd.owns } :: w.handles } := by
  constructor
  · exact hw.ctrl_lt
  · exact hw.ctrl_nodup
  · intro h hh
    simp only [List.mem_cons] at hh
    rcases hh with rfl | hh
    · simp
    · have := hw.handle_lt h hh
      simp only; omega
  · simp only [List.map_cons, List.nodup_cons]
    refine ⟨fun hmem => ?_, hw.handle_nodup⟩
    obtain ⟨b, hb, hid⟩ := List.mem_map.mp hmem
    have := hw.handle_lt b hb
    omega
  · intro h hh c hc
    simp only [List.mem_cons] at hh
    rcases hh with rfl | hh
    · exact hw.owns_live hd hm c hc
    · exact hw.owns_live h hh c hc
  · intro b hb
    obtain ⟨h, hh, ho⟩ := hw.live_owned b hb
    exact ⟨h, List.mem_cons_of_mem _ hh, ho⟩
  · exact hw.released_lt
  · exact hw.released_nodup
  · exact hw.released_dead
  · exact hw.dead_released

theorem Heap.WF.handle_unique {w : Heap ρ δ} (hw : w.WF) {x y : Handle} (hx : x ∈ w.handles)
    (hy : y ∈ w.handles) (hid : x.id = y.id) : x = y :=
  List.inj_on_of_nodup_map hw.handle_nodup hx hy hid

theorem Heap.WF.step_move {w : Heap ρ δ} (hw : w.WF) {hd : Handle} (hm : hd ∈ w.handles) :
    Heap.WF { w with
        nhandle := w.nhandle + 1
        handles := { id := w.nhandle, owns := hd.owns } ::
          w.handles.map fun x => if x.id == hd.id then { x with owns := none } else x } := by
  have hids : (w.handles.map fun x => if x.id == hd.id then { x with owns := none } else x).map
      Handle.id = w.handles.map Handle.id := by
    rw [List.map_map]
    apply List.map_congr_left
    intro x _
    simp only [Function.comp]
    split <;> rfl
  constructor
  · exact hw.ctrl_lt
  · exact hw.ctrl_nodup
  · intro h hh
    simp only [List.mem_cons, List.mem_map] at hh
    rcases hh with rfl | ⟨x, hx, rfl⟩
    · simp
    · have := hw.handle_lt x hx
      split <;> (simp only; omega)
  · simp only [List.map_cons, List.nodup_cons, hids]
    refine ⟨fun hmem => ?_, hw.handle_nodup⟩
    obtain ⟨b, hb, hid⟩ := List.mem_map.mp hmem
    have := hw.handle_lt b hb
    omega
  · intro h hh c hc
    simp only [List.mem_cons, List.mem_map] at hh
    rcases hh with rfl | ⟨x, hx, rfl⟩
    · exact hw.owns_live hd hm c hc
    · split at hc
      · simp at hc
      · exact hw.owns_live x hx c hc
  · intro b hb
    obtain ⟨h, hh, ho⟩ := hw.live_owned b hb
    by_cases hid : h.id = hd.id
    · have : h = hd := hw.handle_unique hh hm hid
      subst this
      exact ⟨_, List.mem_cons_self _ _, ho⟩
    · refine ⟨h, List.mem_cons_of_mem _ (List.mem_map.mpr ⟨h, hh, ?_⟩), ho⟩
      simp [hid]
  · exact hw.released_lt
  · exact hw.released_nodup
  · exact hw.released_dead
  · exact hw.dead_released

theorem Heap.WF.step_drop_keep {w : Heap ρ δ} (hw : w.WF) {h : Nat} {hd : Handle}
    (hf : w.handle? h = some hd)
    (hk : hd.owns = none ∨ ∃ c, hd.owns = some c ∧
      ((w.handles.eraseP fun x => x.id == h).any fun x => x.owns == some c) = true) :
    Heap.WF { w with handles := w.handles.eraseP fun x => x.id == h } := by
  have hsub : ∀ x, x ∈ (w.handles.eraseP fun x => x.id == h) → x ∈ w.handles :=
    fun x hx => List.mem_of_mem_eraseP hx
  constructor
  · exact hw.ctrl_lt
  · exact hw.ctrl_nodup
  · exact fun x hx => hw.handle_lt x (hsub x hx)
  · exact (List.eraseP_sublist _).map _ |>.nodup hw.handle_nodup
  · exact fun x hx => hw.owns_live x (hsub x hx)
  · intro b hb
    obtain ⟨x, hx, ho⟩ := hw.live_owned b hb
    rcases (mem_iff_of_find hf x).mp hx with rfl | hx'
    · rcases hk with hn | ⟨c, hc, hany⟩
      · rw [hn] at ho; simp at ho
      · rw [hc] at ho
        simp only [Option.some.injEq] at ho
        subst ho
        obtain ⟨y, hy, hyo⟩ := List.any_eq_true.mp hany
        exact ⟨y, hy, by simpa using hyo⟩
    · exact ⟨x, hx', ho⟩
  · exact hw.released_lt
  · exact hw.released_nodup
  · exact hw.released_dead
  · exact hw.dead_released

theorem Heap.WF.step_drop_last {w : Heap ρ δ} (hw : w.WF) {h : Nat} {hd : Handle}
    (hf : w.handle? h = some hd) {c : Nat} (hc : hd.owns = some c)
    (hlast : ((w.handles.eraseP fun x => x.id == h).any fun x => x.owns == some c) = false)
    {b : Ctrl δ} (hb : w.ctrls.find? (fun b => b.id == c) = some b) (r : ρ) :
    Heap.WF { w with
        res := r
        ctrls := w.ctrls.eraseP fun x => x.id == c
        handles := w.handles.eraseP fun x => x.id == h
        released := c :: w.released } := by
  have hsub : ∀ x, x ∈ (w.handles.eraseP fun x => x.id == h) → x ∈ w.handles :=
    fun x hx => List.mem_of_mem_eraseP hx
  have hcsub : ∀ x, x ∈ (w.ctrls.eraseP fun x => x.id == c) → x ∈ w.ctrls :=
    fun x hx => List.mem_of_mem_eraseP hx
  have hbid : b.id = c := by simpa using List.find?_some hb
  have hbm : b ∈ w.ctrls := List.mem_of_find?_eq_some hb
  have hperm := (perm_cons_eraseP_of_find _ _ _ hb).map Ctrl.id
  simp only [List.map_cons, hbid] at hperm
  have hnd := hperm.nodup_iff.mp hw.ctrl_nodup
  have hcn : c ∉ (w.ctrls.eraseP fun x => x.id == c).map Ctrl.id := (List.nodup_cons.mp hnd).1
  have hlast' : ∀ x ∈ (w.handles.eraseP fun x => x.id == h), x.owns ≠ some c := by
    intro x hx ho
    have : ((w.handles.eraseP fun x => x.id == h).any fun x => x.owns == some c) = true :=
      List.any_eq_true.mpr ⟨x, hx, by simp [ho]⟩
    rw [hlast] at this
    exact absurd this (by simp)
  constructor
  · exact fun x hx => hw.ctrl_lt x (hcsub x hx)
  · exact (List.nodup_cons.mp hnd).2
  · exact fun x hx => hw.handle_lt x (hsub x hx)
  · exact (List.eraseP_sublist _).map _ |>.nodup hw.handle_nodup
  · intro x hx c' hc'
    have h1 := hw.owns_live x (hsub x hx) c' hc'
    rcases List.mem_cons.mp (hperm.mem_iff.mp h1) with rfl | h2
    · exact absurd hc' (hlast' x hx)
    · exact h2
  · intro b' hb'
    obtain ⟨x, hx, ho⟩ := hw.live_owned b' (hcsub b' hb')
    rcases (mem_iff_of_find hf x).mp hx with rfl | hx'
    · rw [hc] at ho
      simp only [Option.some.injEq] at ho
      exact absurd (List.mem_map.mpr ⟨b', hb', ho.symm⟩) hcn
    · exact ⟨x, hx', ho⟩
  · intro c' hc'
    rcases List.mem_cons.mp hc' with rfl | h2
    · rw [← hbid]; exact hw.ctrl_lt b hbm
    · exact hw.released_lt c' h2
  · refine List.nodup_cons.mpr ⟨fun hmem => ?_, hw.released_nodup⟩
    exact hw.released_dead c hmem (List.mem_map.mpr ⟨b, hbm, hbid⟩)
  · intro c' hc'
    rcases List.mem_cons.mp hc' with rfl | h2
    · exact hcn
    · exact fun hmem => hw.released_dead c' h2
        (List.mem_map.mpr (by
          obtain ⟨x, hx, hxi⟩ := List.mem_map.mp hmem
          exact ⟨x, hcsub x hx, hxi⟩))
  · intro c' hlt hn
    by_cases hcc : c' = c
    · exact hcc ▸ List.mem_cons_self _ _
    · refine List.mem_cons_of_mem _ (hw.dead_released c' hlt fun hmem => hn ?_)
      rcases List.mem_cons.mp (hperm.mem_iff.mp hmem) with h1 | h2
      · exact absurd h1 hcc
      · exact h2

theorem Heap.WF.wf_step {I : Iface ρ δ κ} {w w' : Heap ρ δ} {op : Op κ} (hw : w.WF)
    (hs : w.step I op = some w') : w'.WF := by
  cases op with
  | make k =>
    simp only [Heap.step, Option.map_eq_some'] at hs
    obtain ⟨⟨r, d⟩, -, rfl⟩ := hs
    exact hw.step_make r d
  | copy h =>
    simp only [Heap.step, Option.map_eq_some'] at hs
    obtain ⟨hd, hf, rfl⟩ := hs
    exact hw.step_copy (Heap.handle_spec hf).1
  | move h =>
    simp only [Heap.step, Option.map_eq_some'] at hs
    obtain ⟨hd, hf, rfl⟩ := hs
    have := hw.step_move (Heap.handle_spec hf).1
    rw [(Heap.handle_spec hf).2] at this
    exact this
  | drop h =>
    simp only [Heap.step] at hs
    split at hs
    · exact absurd hs (by simp)
    · rename_i hd hfind
      split at hs
      · rename_i hn
        cases hs
        exact hw.step_drop_keep hfind (Or.inl hn)
      · rename_i c hc
        split at hs
        · rename_i hany
          cases hs
          exact hw.step_drop_keep hfind (Or.inr ⟨c, hc, hany⟩)
        · rename_i hany
          split at hs
          · exact absurd hs (by simp)
          · rename_i b hb
            simp only [Option.map_eq_some'] at hs
            obtain ⟨r, -, rfl⟩ := hs
            exact hw.step_drop_last hfind hc (by simpa using hany) hb r

theorem Heap.WF.wf_run {I : Iface ρ δ κ} :
    ∀ (ops : List (Op κ)) {w w' : Heap ρ δ}, w.WF → Heap.run I w ops = some w' → w'.WF
  | [], w, w', hw, h => by
    simp only [Heap.run, Option.some.injEq] at h
    subst h; exact hw
  | op :: ops, w, w', hw, h => by
    simp only [Heap.run, Option.bind_eq_some] at h
    obtain ⟨w1, h1, h2⟩ := h
    exact Heap.WF.wf_run ops (hw.wf_step h1) h2

end fwd

/-! ## The reader-writer lock and the guarded pointer -/

namespace sys

open fwd

theorem assert_true (e : Env) (f : String) (n : Nat) (g t : String) (out : Out) :
    assert e true f n g t out = some out := by
  simp [assert]

theorem RwInv.rw_perm {l : rwlock} {ks ks' : List RwKey} (hp : ks.Perm ks') (h : RwInv l ks) :
    RwInv l ks' := by
  obtain ⟨h1, h2, h3⟩ := h
  refine ⟨fun k hk => h1 k (hp.mem_iff.mpr hk), by rw [← hp.length_eq]; exact h2, ?_⟩
  cases hs : l.prim.state with
  | Unlocked =>
    rw [hs] at h3
    simp only at h3 ⊢
    subst h3
    exact List.Perm.nil_eq hp |>.symm
  | Shared n =>
    rw [hs] at h3
    simp only at h3 ⊢
    exact ⟨by rw [← hp.length_eq]; exact h3.1, h3.2.1, fun k hk => h3.2.2 k (hp.mem_iff.mpr hk)⟩
  | Exclusive =>
    rw [hs] at h3
    simp only at h3 ⊢
    obtain ⟨k, rfl, hk⟩ := h3
    exact ⟨k, List.perm_singleton.mp hp.symm, hk⟩

theorem rwlock.reader_eq (e : Env) (l : rwlock) :
    l.reader e = (l.prim.state.acquireShared).map fun s =>
      ({ l with prim := { l.prim with state := s, acquired := l.prim.acquired + 1 } },
       { that := l.this, mode := .Reader }) := by
  unfold rwlock.reader win.lock uni.rdlock RwPrim.acquire
  cases l.prim.state.acquireShared <;> simp

theorem rwlock.writer_eq (e : Env) (l : rwlock) :
    l.writer e = (l.prim.state.acquireExclusive).map fun s =>
      ({ l with prim := { l.prim with state := s, acquired := l.prim.acquired + 1 } },
       { that := l.this, mode := .Writer }) := by
  unfold rwlock.writer win.xlock uni.wrlock RwPrim.acquire
  cases l.prim.state.acquireExclusive <;> simp

theorem RwInv.rw_deleter_eq (e : Env) {l : rwlock} {k : RwKey} {ks : List RwKey} (out : Out)
    (h : RwInv l (k :: ks)) :
    k.deleter e l out =
      some ({ l with prim := { state := if ks = [] then .Unlocked else .Shared ks.length,
                               acquired := l.prim.acquired,
                               released := l.prim.released + 1 } }, out) := by
  obtain ⟨h1, h2, h3⟩ := h
  have hk : (l.this == k.that) = true := by
    have := h1 k (List.mem_cons_self _ _)
    simp [this]
  unfold RwKey.deleter
  rw [hk, assert_true]
  simp only [Option.some_bind]
  cases hs : l.prim.state with
  | Unlocked => rw [hs] at h3; simp at h3
  | Shared n =>
    rw [hs] at h3
    simp only at h3
    obtain ⟨hlen, -, hr⟩ := h3
    have hm : k.mode = .Reader := hr k (List.mem_cons_self _ _)
    cases ks with
    | nil =>
      simp at hlen; subst hlen
      by_cases hw : e.WIN32 = true <;>
        simp [RwKey.unlock, hw, hm, win.unlock, uni.unlock, RwPrim.release, hs,
          LockState.releaseShared]
    | cons k2 ks2 =>
      simp at hlen; subst hlen
      by_cases hw : e.WIN32 = true <;>
        simp [RwKey.unlock, hw, hm, win.unlock, uni.unlock, RwPrim.release, hs,
          LockState.releaseShared]
  | Exclusive =>
    rw [hs] at h3
    simp only at h3
    obtain ⟨k', hkk, hm'⟩ := h3
    simp at hkk
    obtain ⟨rfl, rfl⟩ := hkk
    by_cases hw : e.WIN32 = true <;>
      simp [RwKey.unlock, hw, hm', win.xunlock, uni.unlock, RwPrim.release, hs,
        LockState.releaseExclusive]


theorem RwInv.rw_reader {e : Env} {l l' : rwlock} {k : RwKey} {ks : List RwKey}
    (h : RwInv l ks) (hr : l.reader e = some (l', k)) : RwInv l' (k :: ks) := by
  obtain ⟨h1, h2, h3⟩ := h
  rw [rwlock.reader_eq] at hr
  cases hs : l.prim.state with
  | Unlocked =>
    rw [hs] at h3; simp only at h3; subst h3
    simp [hs, LockState.acquireShared] at hr
    obtain ⟨rfl, rfl⟩ := hr
    refine ⟨by simp, by simpa using h2, ?_⟩
    simp
  | Shared n =>
    rw [hs] at h3; simp only at h3
    simp [hs, LockState.acquireShared] at hr
    obtain ⟨rfl, rfl⟩ := hr
    refine ⟨by simpa using h1, by simp; omega, ?_⟩
    simp only [List.length_cons, List.mem_cons, forall_eq_or_imp, true_and]
    exact ⟨by omega, by omega, h3.2.2⟩
  | Exclusive => simp [hs, LockState.acquireShared] at hr

theorem RwInv.rw_writer {e : Env} {l l' : rwlock} {k : RwKey} {ks : List RwKey}
    (h : RwInv l ks) (hr : l.writer e = some (l', k)) : RwInv l' (k :: ks) := by
  obtain ⟨h1, h2, h3⟩ := h
  rw [rwlock.writer_eq] at hr
  cases hs : l.prim.state with
  | Unlocked =>
    rw [hs] at h3; simp only at h3; subst h3
    simp [hs, LockState.acquireExclusive] at hr
    obtain ⟨rfl, rfl⟩ := hr
    refine ⟨by simp, by simpa using h2, ?_⟩
    simp
  | Shared n => simp [hs, LockState.acquireExclusive] at hr
  | Exclusive => simp [hs, LockState.acquireExclusive] at hr

theorem RwInv.rw_released {l : rwlock} {k : RwKey} {ks : List RwKey} (h : RwInv l (k :: ks)) :
    RwInv { l with prim := { state := if ks = [] then .Unlocked else .Shared ks.length,
                             acquired := l.prim.acquired,
                             released := l.prim.released + 1 } } ks := by
  obtain ⟨h1, h2, h3⟩ := h
  refine ⟨fun k' hk' => h1 k' (List.mem_cons_of_mem _ hk'), by simp at h2 ⊢; omega, ?_⟩
  cases ks with
  | nil => simp
  | cons k2 ks2 =>
    simp only [reduceCtorEq, if_false]
    cases hs : l.prim.state with
    | Unlocked => rw [hs] at h3; simp at h3
    | Shared n =>
      rw [hs] at h3; simp only at h3
      exact ⟨trivial, by simp, fun k3 hk3 => h3.2.2 k3 (List.mem_cons_of_mem _ hk3)⟩
    | Exclusive => rw [hs] at h3; simp at h3

theorem RwInv.rw_init (this : Ptr) : RwInv (rwlock.ctor this) [] := by
  simp [RwInv, rwlock.ctor]

theorem ExInv.ex_perm {ptr : Ptr} {out : Out} (a b : Nat) (r : exclusive_ptr × Out)
    (ts ts' : List Token) (hp : ts.Perm ts') (h : ExInv ptr out a b r ts) :
    ExInv ptr out a b r ts' :=
  ⟨h.1, h.2.1, h.2.2.1, h.2.2.2.1, fun t ht => h.2.2.2.2.1 t (hp.mem_iff.mpr ht),
    h.2.2.2.2.2.rw_perm (hp.map _)⟩

theorem ExInv.ex_acquire {ptr : Ptr} {out : Out} (e : Env) (a b : Nat) (m : Mode)
    (r : exclusive_ptr × Out) (ts : List Token) (r' : exclusive_ptr × Out) (t : Token)
    (h : ExInv ptr out a b r ts)
    (ha : (exclusive_ptr.iface e).acquire m r = some (r', t)) :
    ExInv ptr out (a + 1) b r' (t :: ts) := by
  obtain ⟨h1, h2, ha1, hb1, h3, h4⟩ := h
  cases m with
  | Reader =>
    simp only [exclusive_ptr.iface, exclusive_ptr.reader, Option.map_map, Option.map_eq_some',
      Function.comp] at ha
    obtain ⟨⟨l', k⟩, hl, heq⟩ := ha
    simp only [Prod.mk.injEq] at heq
    obtain ⟨rfl, rfl⟩ := heq
    have hl' := hl
    rw [rwlock.reader_eq] at hl'
    simp only [Option.map_eq_some', Prod.mk.injEq] at hl'
    obtain ⟨s, -, rfl, -⟩ := hl'
    exact ⟨h1, h2, by simp [ha1], by simp [hb1], by simpa [h1] using h3,
      by simpa using h4.rw_reader hl⟩
  | Writer =>
    simp only [exclusive_ptr.iface, exclusive_ptr.writer, Option.map_map, Option.map_eq_some',
      Function.comp] at ha
    obtain ⟨⟨l', k⟩, hl, heq⟩ := ha
    simp only [Prod.mk.injEq] at heq
    obtain ⟨rfl, rfl⟩ := heq
    have hl' := hl
    rw [rwlock.writer_eq] at hl'
    simp only [Option.map_eq_some', Prod.mk.injEq] at hl'
    obtain ⟨s, -, rfl, -⟩ := hl'
    exact ⟨h1, h2, by simp [ha1], by simp [hb1], by simpa [h1] using h3,
      by simpa using h4.rw_writer hl⟩

/-- What ending a live token does to the guarded pointer. -/
theorem ExInv.ex_deleter_eq {ptr : Ptr} {out : Out} {a b : Nat} (e : Env)
    {r : exclusive_ptr × Out} {t : Token} {ts : List Token} (h : ExInv ptr out a b r (t :: ts)) :
    (exclusive_ptr.iface e).deleter t r =
      some ({ r.1 with lock := { r.1.lock with prim :=
                { state := if ts = [] then .Unlocked else .Shared ts.length,
                  acquired := r.1.lock.prim.acquired,
                  released := r.1.lock.prim.released + 1 } } }, r.2) := by
  obtain ⟨h1, h2, -, -, h3, h4⟩ := h
  have ht : (r.1.that == t.that) = true := by
    have := h3 t (List.mem_cons_self _ _)
    simp [this, h1]
  have h4' : RwInv r.1.lock (t.key :: ts.map Token.key) := by simpa using h4
  simp only [exclusive_ptr.iface, Token.deleter]
  rw [ht, assert_true]
  simp only [Option.some_bind]
  rw [h4'.rw_deleter_eq e]
  simp

theorem ExInv.ex_release {ptr : Ptr} {out : Out} (e : Env) (a b : Nat) (r : exclusive_ptr × Out)
    (t : Token) (ts : List Token) (r' : exclusive_ptr × Out) (h : ExInv ptr out a b r (t :: ts))
    (hd : (exclusive_ptr.iface e).deleter t r = some r') : ExInv ptr out a (b + 1) r' ts := by
  rw [h.ex_deleter_eq e] at hd
  simp only [Option.some.injEq] at hd
  subst hd
  obtain ⟨h1, h2, ha1, hb1, h3, h4⟩ := h
  have h4' : RwInv r.1.lock (t.key :: ts.map Token.key) := by simpa using h4
  refine ⟨h1, h2, ha1, by simp [hb1], fun t' ht' => h3 t' (List.mem_cons_of_mem _ ht'), ?_⟩
  simpa using h4'.rw_released

theorem ExInv.ex_ctor {e : Env} {lockAt ptr : Ptr} {out : Out} {r0 : exclusive_ptr × Out}
    (h0 : exclusive_ptr.ctor e lockAt ptr out = some r0) : ExInv ptr r0.2 0 0 r0 [] := by
  simp only [exclusive_ptr.ctor, Option.map_eq_some'] at h0
  obtain ⟨o, -, rfl⟩ := h0
  exact ⟨rfl, rfl, rfl, rfl, by simp, by simpa using RwInv.rw_init lockAt⟩

/-- Every state a guarded pointer reaches from its construction satisfies
the invariant. -/
theorem ExInv.ex_run {e : Env} {lockAt ptr : Ptr} {out : Out} {r0 : exclusive_ptr × Out}
    (h0 : exclusive_ptr.ctor e lockAt ptr out = some r0) {ops : List (Op Mode)}
    {w : Heap (exclusive_ptr × Out) Token}
    (hrun : Heap.run (exclusive_ptr.iface e) (Heap.init r0) ops = some w) :
    ExInv ptr r0.2 w.nctrl w.released.length w.res w.live :=
  Heap.run_live (exclusive_ptr.iface e) (ExInv ptr r0.2) ExInv.ex_perm (ExInv.ex_acquire e)
    (ExInv.ex_release e) ops (Heap.init r0) w (ExInv.ex_ctor h0) hrun

theorem ExInv.ex_cases {ptr : Ptr} {out : Out} {a b : Nat} {r : exclusive_ptr × Out}
    {ts : List Token} (h : ExInv ptr out a b r ts) :
    (r.1.lock.prim.state = .Unlocked ∧ ts = []) ∨
    (∃ n, r.1.lock.prim.state = .Shared n ∧ 1 ≤ n ∧ ts.length = n ∧
      ∀ t ∈ ts, t.key.mode = .Reader) ∨
    (r.1.lock.prim.state = .Exclusive ∧ ∃ t, ts = [t] ∧ t.key.mode = .Writer) := by
  obtain ⟨-, -, -, -, -, -, -, h3⟩ := h
  cases hs : r.1.lock.prim.state with
  | Unlocked =>
    rw [hs] at h3; simp only at h3
    exact Or.inl ⟨rfl, by simpa using h3⟩
  | Shared n =>
    rw [hs] at h3; simp only at h3
    refine Or.inr (Or.inl ⟨n, rfl, h3.2.1, by simpa using h3.1, fun t ht => ?_⟩)
    exact h3.2.2 t.key (List.mem_map_of_mem _ ht)
  | Exclusive =>
    rw [hs] at h3; simp only at h3
    obtain ⟨k, hk, hm⟩ := h3
    refine Or.inr (Or.inr ⟨rfl, ?_⟩)
    match ts, hk with
    | [t], hk =>
      simp at hk
      exact ⟨t, rfl, by rw [hk]; exact hm⟩

theorem step_make_isSome (e : Env) (w : Heap (exclusive_ptr × Out) Token) (m : Mode) :
    (w.step (exclusive_ptr.iface e) (.make m)).isSome =
      (match m with
        | .Reader => w.res.1.lock.prim.state.acquireShared
        | .Writer => w.res.1.lock.prim.state.acquireExclusive).isSome := by
  cases m <;>
    simp [Heap.step, exclusive_ptr.iface, exclusive_ptr.reader, exclusive_ptr.writer,
      rwlock.reader_eq, rwlock.writer_eq]

/-- What a completed `reader()` or `writer()` leaves behind. -/
theorem step_make_eq (e : Env) (w : Heap (exclusive_ptr × Out) Token) (m : Mode) :
    w.step (exclusive_ptr.iface e) (.make m) =
      (match m with
        | .Reader => w.res.1.lock.prim.state.acquireShared
        | .Writer => w.res.1.lock.prim.state.acquireExclusive).map fun s =>
        { w with
          res := ({ w.res.1 with lock := { w.res.1.lock with prim :=
                      { w.res.1.lock.prim with state := s,
                                               acquired := w.res.1.lock.prim.acquired + 1 } } },
                  w.res.2)
          nctrl := w.nctrl + 1
          nhandle := w.nhandle + 1
          ctrls := { id := w.nctrl,
                     del := { that := w.res.1.that,
                              key := { that := w.res.1.lock.this, mode := m } } } :: w.ctrls
          handles := { id := w.nhandle, owns := some w.nctrl } :: w.handles } := by
  cases m
  · simp only [Heap.step, exclusive_ptr.iface, exclusive_ptr.reader, rwlock.reader_eq]
    cases w.res.1.lock.prim.state.acquireShared <;> simp
  · simp only [Heap.step, exclusive_ptr.iface, exclusive_ptr.writer, rwlock.writer_eq]
    cases w.res.1.lock.prim.state.acquireExclusive <;> simp

theorem ExInv.state_eq {ptr : Ptr} {out : Out} {a b : Nat} {r : exclusive_ptr × Out}
    {ts : List Token} (h : ExInv ptr out a b r ts)
    (hw : ts.countP (fun t => t.key.mode = .Writer) = 0) :
    r.1.lock.prim.state =
      if ts.countP (fun t => t.key.mode = .Reader) = 0 then .Unlocked
      else .Shared (ts.countP fun t => t.key.mode = .Reader) := by
  rcases h.ex_cases with ⟨hs, hl⟩ | ⟨n, hs, hn, hlen, hall⟩ | ⟨hs, t, hl, hm⟩
  · simp [hs, hl]
  · have : ts.countP (fun t => t.key.mode = .Reader) = n := by
      rw [← hlen]
      exact List.countP_eq_length.mpr (by simpa using hall)
    rw [this, hs, if_neg (by omega)]
  · rw [hl] at hw
    simp [hm] at hw

theorem readers_run (e : Env) (ptr : Ptr) (out : Out) :
    ∀ (k : Nat) (w : Heap (exclusive_ptr × Out) Token),
      ExInv ptr out w.nctrl w.released.length w.res w.live → writers w = 0 →
      ∃ w', Heap.run (exclusive_ptr.iface e) w (List.replicate k (.make .Reader)) = some w' ∧
        ExInv ptr out w'.nctrl w'.released.length w'.res w'.live ∧
        writers w' = 0 ∧ readers w' = readers w + k ∧
        (∀ b ∈ w.ctrls, b ∈ w'.ctrls) ∧
        (∀ i, w.nctrl ≤ i → i < w.nctrl + k → ∃ b ∈ w'.ctrls, b.id = i ∧ b.del.key.mode = .Reader)
  | 0, w, hI, hw => ⟨w, by simp [Heap.run], hI, hw, by simp, fun b hb => hb,
      fun i h1 h2 => by omega⟩
  | k + 1, w, hI, hw => by
    have hst := hI.state_eq hw
    have hacq : ∃ s, w.res.1.lock.prim.state.acquireShared = some s := by
      rw [hst]
      split <;> simp [LockState.acquireShared]
    obtain ⟨s, hs⟩ := hacq
    have hstep := step_make_eq e w .Reader
    simp only [hs, Option.map_some'] at hstep
    have hI1 := Heap.step_live (exclusive_ptr.iface e) (ExInv ptr out) ExInv.ex_perm
      (ExInv.ex_acquire e) (ExInv.ex_release e) w _ _ hI hstep
    obtain ⟨w', hrun, hI', hw', hr', hsub, hnew⟩ := readers_run e ptr out k _ hI1
      (by simpa [writers, Heap.live] using hw)
    refine ⟨w', ?_, hI', hw', ?_, fun b hb => hsub b (List.mem_cons_of_mem _ hb), ?_⟩
    · simp only [List.replicate_succ, Heap.run, hstep, Option.some_bind]
      exact hrun
    · rw [hr']
      simp [readers, Heap.live]
      omega
    · intro i h1 h2
      by_cases hi : i = w.nctrl
      · subst hi
        exact ⟨_, hsub _ (List.mem_cons_self _ _), rfl, rfl⟩
      · exact hnew i (by simp only; omega) (by simp only; omega)


end sys

/-! ## Releases per token -/

namespace fwd

variable {ρ δ κ : Type}

theorem Heap.WF.owned_iff {w : Heap ρ δ} (hw : w.WF) (c : Nat) :
    w.owned c = true ↔ c ∈ w.ctrls.map Ctrl.id := by
  unfold Heap.owned
  rw [List.any_eq_true]
  constructor
  · rintro ⟨x, hx, ho⟩
    exact hw.owns_live x hx c (by simpa using ho)
  · intro hc
    obtain ⟨b, hb, rfl⟩ := List.mem_map.mp hc
    obtain ⟨x, hx, ho⟩ := hw.live_owned b hb
    exact ⟨x, hx, by simp [ho]⟩

/-- The callback of a token has run no time while a handle owns the token and
exactly once after. -/
theorem Heap.WF.count_released {w : Heap ρ δ} (hw : w.WF) (c : Nat) (hc : c < w.nctrl) :
    w.released.count c = if w.owned c then 0 else 1 := by
  by_cases ho : w.owned c = true
  · rw [if_pos ho]
    exact List.count_eq_zero.mpr fun hmem => hw.released_dead c hmem ((hw.owned_iff c).mp ho)
  · rw [if_neg ho]
    have hn : c ∉ w.ctrls.map Ctrl.id := fun h => ho ((hw.owned_iff c).mpr h)
    exact List.count_eq_one_of_mem hw.released_nodup (hw.dead_released c hc hn)

theorem Heap.WF.handle_eq {w : Heap ρ δ} (hw : w.WF) {hd : Handle} (hm : hd ∈ w.handles) :
    w.handle? hd.id = some hd := by
  unfold Heap.handle?
  cases hf : w.handles.find? (fun x => x.id == hd.id) with
  | none =>
    have := List.find?_eq_none.mp hf hd hm
    simp at this
  | some x =>
    have hx : x ∈ w.handles := List.mem_of_find?_eq_some hf
    have hid : x.id = hd.id := by simpa using List.find?_some hf
    rw [hw.handle_unique hx hm hid]

/-- Destroying a handle that does not hold the last ownership of a control
block (it is empty, or another handle shares the block) completes and only
removes the handle. -/
theorem Heap.WF.drop_keep (I : Iface ρ δ κ) {w : Heap ρ δ} (hw : w.WF) {hd : Handle}
    (hm : hd ∈ w.handles)
    (hk : hd.owns = none ∨ ∃ c, hd.owns = some c ∧
      ((w.handles.eraseP fun x => x.id == hd.id).any fun x => x.owns == some c) = true) :
    w.step I (.drop hd.id) =
      some { w with handles := w.handles.eraseP fun x => x.id == hd.id } := by
  simp only [Heap.step, hw.handle_eq hm]
  rcases hk with hn | ⟨c, hc, hany⟩
  · simp [hn]
  · simp only [hc, hany, if_true]

/-- Destroying the last handle that owns a control block runs the callback of
that block, once, and completes when the callback does. -/
theorem Heap.WF.drop_last (I : Iface ρ δ κ) {w : Heap ρ δ} (hw : w.WF) {hd : Handle}
    (hm : hd ∈ w.handles) {c : Nat} (hc : hd.owns = some c)
    (hlast : ((w.handles.eraseP fun x => x.id == hd.id).any fun x => x.owns == some c) = false) :
    ∃ b ∈ w.ctrls, b.id = c ∧
      w.step I (.drop hd.id) = (I.deleter b.del w.res).map fun r =>
        { w with
          res := r
          ctrls := w.ctrls.eraseP fun x => x.id == c
          handles := w.handles.eraseP fun x => x.id == hd.id
          released := c :: w.released } := by
  have hlive := hw.owns_live hd hm c hc
  obtain ⟨b0, hb0, hid0⟩ := List.mem_map.mp hlive
  cases hf : w.ctrls.find? (fun b => b.id == c) with
  | none =>
    have := List.find?_eq_none.mp hf b0 hb0
    simp [hid0] at this
  | some b =>
    refine ⟨b, List.mem_of_find?_eq_some hf, by simpa using List.find?_some hf, ?_⟩
    simp only [Heap.step, hw.handle_eq hm, hc, hlast, hf]
    simp

theorem Heap.run_append (I : Iface ρ δ κ) :
    ∀ (ops ops' : List (Op κ)) (w : Heap ρ δ),
      Heap.run I w (ops ++ ops') = (Heap.run I w ops).bind fun w' => Heap.run I w' ops'
  | [], ops', w => by simp [Heap.run]
  | op :: ops, ops', w => by
    simp only [List.cons_append, Heap.run]
    cases w.step I op with
    | none => simp
    | some w1 => simpa using Heap.run_append I ops ops' w1

/-- Destroying a live handle completes as soon as the callbacks of the live
tokens do, and it releases exactly when the handle was the last owner. -/
theorem Heap.WF.drop_spec (I : Iface ρ δ κ) {w : Heap ρ δ} (hw : w.WF)
    (hdel : ∀ b ∈ w.ctrls, ∃ r', I.deleter b.del w.res = some r')
    {hd : Handle} (hm : hd ∈ w.handles) :
    ∃ w', w.step I (.drop hd.id) = some w' ∧
      w'.handles = (w.handles.eraseP fun x => x.id == hd.id) ∧
      w'.nctrl = w.nctrl ∧ w'.nhandle = w.nhandle ∧
      (w'.released = w.released → w'.res = w.res ∧ w'.ctrls = w.ctrls) ∧
      w'.released =
        match hd.owns with
        | none => w.released
        | some c => if w'.owned c then w.released else c :: w.released := by
  cases ho : hd.owns with
  | none =>
    exact ⟨_, hw.drop_keep I hm (Or.inl ho), rfl, rfl, rfl, fun _ => ⟨rfl, rfl⟩, rfl⟩
  | some c =>
    by_cases hany : ((w.handles.eraseP fun x => x.id == hd.id).any fun x => x.owns == some c)
        = true
    · refine ⟨_, hw.drop_keep I hm (Or.inr ⟨c, ho, hany⟩), rfl, rfl, rfl,
        fun _ => ⟨rfl, rfl⟩, ?_⟩
      simp only [Heap.owned, hany, if_true]
    · have hany' : ((w.handles.eraseP fun x => x.id == hd.id).any
          fun x => x.owns == some c) = false := by simpa using hany
      obtain ⟨b, hb, -, hstep⟩ := hw.drop_last I hm ho hany'
      obtain ⟨r', hr'⟩ := hdel b hb
      rw [hr', Option.map_some'] at hstep
      refine ⟨_, hstep, rfl, rfl, rfl, fun h => ?_, ?_⟩
      · exact absurd (congrArg List.length h) (by simp)
      · simp only [Heap.owned, hany', Bool.false_eq_true, if_false]

theorem releasedOnce_of_inv (I : Iface ρ δ κ) (count : ρ → Nat)
    (P : Nat → Nat → ρ → List δ → Prop) (r0 : ρ)
    (hperm : ∀ a b r l l', l.Perm l' → P a b r l → P a b r l')
    (hacq : ∀ a b k r l r' d, P a b r l → I.acquire k r = some (r', d) → P (a + 1) b r' (d :: l))
    (hrel : ∀ a b r d l r', P a b r (d :: l) → I.deleter d r = some r' → P a (b + 1) r' l)
    (hP0 : P 0 0 r0 [])
    (hcount : ∀ a b r l, P a b r l → count r = b)
    (hdel : ∀ a b r d l, P a b r (d :: l) → ∃ r', I.deleter d r = some r') :
    ReleasedOnce I count r0 := by
  intro ops w hrun
  have hw : w.WF := Heap.WF.wf_run ops (Heap.WF.wf_init r0) hrun
  have hP := Heap.run_live I P hperm hacq hrel ops (Heap.init r0) w hP0 hrun
  have hdel' : ∀ (w : Heap ρ δ), P w.nctrl w.released.length w.res w.live →
      ∀ b ∈ w.ctrls, ∃ r', I.deleter b.del w.res = some r' := by
    intro w hP b hb
    have hmem : b.del ∈ w.live := List.mem_map_of_mem _ hb
    obtain ⟨l1, l2, hl⟩ := List.append_of_mem hmem
    have hp : w.live.Perm (b.del :: (l1 ++ l2)) := by
      rw [hl]; exact List.perm_middle
    exact hdel _ _ _ _ _ (hperm _ _ _ _ _ hp hP)
  refine ⟨hcount _ _ _ _ hP, fun c hc => hw.count_released c hc, ?_, ?_, ?_⟩
  · intro hd hm
    obtain ⟨w', hs, -, -, -, -, hr⟩ := hw.drop_spec I (hdel' w hP) hm
    exact ⟨w', hs, hr⟩
  · intro hd hm
    refine ⟨{ w with
          nhandle := w.nhandle + 1
          handles := { id := w.nhandle, owns := hd.owns } :: w.handles },
        { w with
          nhandle := w.nhandle + 1
          handles := { id := w.nhandle, owns := hd.owns } ::
            w.handles.map fun x => if x.id == hd.id then { x with owns := none } else x },
        ?_, rfl, ?_, rfl⟩
    · simp only [Heap.step, hw.handle_eq hm, Option.map_some']
    · simp only [Heap.step, hw.handle_eq hm, Option.map_some']
  · intro hd hm c hc huniq
    have hs1 : w.step I (.move hd.id) = some
        { w with
          nhandle := w.nhandle + 1
          handles := { id := w.nhandle, owns := hd.owns } ::
            w.handles.map fun x => if x.id == hd.id then { x with owns := none } else x } := by
      simp only [Heap.step, hw.handle_eq hm, Option.map_some']
    have hw1 := hw.wf_step hs1
    have hm1 : ({ hd with owns := none } : Handle) ∈
        ({ id := w.nhandle, owns := hd.owns } ::
          w.handles.map fun x => if x.id == hd.id then { x with owns := none } else x) := by
      refine List.mem_cons_of_mem _ (List.mem_map.mpr ⟨hd, hm, ?_⟩)
      simp
    obtain ⟨w2, hs2, hh2, hn2, hnh2, hkeep2, hr2⟩ := hw1.drop_spec I (hdel' _ hP) hm1
    simp only at hr2 hh2 hn2 hnh2
    have hw2 := hw1.wf_step hs2
    have hne : (w.nhandle == hd.id) = false := by
      have := hw.handle_lt hd hm
      simp only [beq_eq_false_iff_ne, ne_eq]
      omega
    have hh2' : w2.handles = { id := w.nhandle, owns := hd.owns } ::
        (w.handles.map fun x => if x.id == hd.id then { x with owns := none } else x).eraseP
          fun x => x.id == hd.id := by
      rw [hh2, List.eraseP_cons_of_neg (by simp [hne])]
    have hm2 : ({ id := w.nhandle, owns := hd.owns } : Handle) ∈ w2.handles := by
      rw [hh2']; exact List.mem_cons_self _ _
    obtain ⟨hres2, hctrl2⟩ := hkeep2 hr2
    have hP2 : P w2.nctrl w2.released.length w2.res w2.live := by
      simp only [Heap.live, hn2, hr2, hres2, hctrl2]
      exact hP
    obtain ⟨w3, hs3, hh3, -, -, -, hr3⟩ := hw2.drop_spec I (hdel' _ hP2) hm2
    simp only [hc] at hr3
    have hown : w3.owned c = false := by
      simp only [Heap.owned, hh3, hh2']
      rw [List.eraseP_cons_of_pos (by simp)]
      rw [List.any_eq_false]
      intro x hx
      have hx' := List.mem_of_mem_eraseP hx
      obtain ⟨y, hy, rfl⟩ := List.mem_map.mp hx'
      by_cases hid : y.id = hd.id
      · simp [hid]
      · simp only [beq_iff_eq, hid, if_false]
        intro hyo
        exact hid (congrArg Handle.id (huniq y hy (by simpa using hyo)))
    rw [hown] at hr3
    simp only [Bool.false_eq_true, if_false, hr2] at hr3
    exact ⟨_, w2, w3, hs1, hs2, hs3, rfl, hr2, hr3⟩


end fwd

namespace sys

open fwd

/-! ## A reader-writer lock used directly -/

theorem RwWorldInv.rww_perm {out : Out} (a b : Nat) (r : rwlock × Out) (ks ks' : List RwKey)
    (hp : ks.Perm ks') (h : RwWorldInv out a b r ks) : RwWorldInv out a b r ks' :=
  ⟨h.1, h.2.1, h.2.2.1, h.2.2.2.rw_perm hp⟩

theorem RwWorldInv.rww_acquire {out : Out} (e : Env) (a b : Nat) (m : Mode) (r : rwlock × Out)
    (ks : List RwKey) (r' : rwlock × Out) (k : RwKey) (h : RwWorldInv out a b r ks)
    (ha : (rwlock.iface e).acquire m r = some (r', k)) :
    RwWorldInv out (a + 1) b r' (k :: ks) := by
  obtain ⟨h1, ha1, hb1, h4⟩ := h
  cases m with
  | Reader =>
    simp only [rwlock.iface, Option.map_eq_some', Prod.mk.injEq] at ha
    obtain ⟨⟨l', k'⟩, hl, rfl, rfl⟩ := ha
    have hl' := hl
    rw [rwlock.reader_eq] at hl'
    simp only [Option.map_eq_some', Prod.mk.injEq] at hl'
    obtain ⟨s, -, rfl, -⟩ := hl'
    exact ⟨h1, by simp [ha1], by simp [hb1], h4.rw_reader hl⟩
  | Writer =>
    simp only [rwlock.iface, Option.map_eq_some', Prod.mk.injEq] at ha
    obtain ⟨⟨l', k'⟩, hl, rfl, rfl⟩ := ha
    have hl' := hl
    rw [rwlock.writer_eq] at hl'
    simp only [Option.map_eq_some', Prod.mk.injEq] at hl'
    obtain ⟨s, -, rfl, -⟩ := hl'
    exact ⟨h1, by simp [ha1], by simp [hb1], h4.rw_writer hl⟩

theorem RwWorldInv.rww_release {out : Out} (e : Env) (a b : Nat) (r : rwlock × Out)
    (k : RwKey) (ks : List RwKey) (r' : rwlock × Out) (h : RwWorldInv out a b r (k :: ks))
    (hd : (rwlock.iface e).deleter k r = some r') : RwWorldInv out a (b + 1) r' ks := by
  obtain ⟨h1, ha1, hb1, h4⟩ := h
  simp only [rwlock.iface] at hd
  rw [h4.rw_deleter_eq e] at hd
  simp only [Option.some.injEq] at hd
  subst hd
  exact ⟨h1, ha1, by simp [hb1], h4.rw_released⟩

/-- Every state a reader-writer lock reaches from its construction satisfies
the invariant. -/
theorem RwWorldInv.rww_run {e : Env} {this : Ptr} {out : Out} {ops : List (Op Mode)}
    {w : Heap (rwlock × Out) RwKey}
    (hrun : Heap.run (rwlock.iface e) (Heap.init (rwlock.ctor this, out)) ops = some w) :
    RwWorldInv out w.nctrl w.released.length w.res w.live :=
  Heap.run_live (rwlock.iface e) (RwWorldInv out) RwWorldInv.rww_perm
    (RwWorldInv.rww_acquire e) (RwWorldInv.rww_release e) ops
    (Heap.init (rwlock.ctor this, out)) w
    ⟨rfl, rfl, rfl, RwInv.rw_init this⟩ hrun

/-! ## The mutex -/

theorem MxInv.mx_perm {out : Out} (a b : Nat) (r : mutex × Out) (ks ks' : List MutexKey)
    (hp : ks.Perm ks') (h : MxInv out a b r ks) : MxInv out a b r ks' := by
  obtain ⟨h1, h2, h3, h4, h5, h6⟩ := h
  refine ⟨h1, h2, h3, by rw [← hp.length_eq]; exact h4, fun k hk => h5 k (hp.mem_iff.mpr hk), ?_⟩
  rcases h6 with ⟨hh, rfl⟩ | ⟨hh, k, rfl⟩
  · exact Or.inl ⟨hh, (List.Perm.nil_eq hp).symm⟩
  · exact Or.inr ⟨hh, k, List.perm_singleton.mp hp.symm⟩

theorem mutex.key_eq (e : Env) (m : mutex) :
    m.key e = if m.prim.held then none
      else some ({ m with prim := { m.prim with held := true,
                                                acquired := m.prim.acquired + 1 } },
                 { that := m.this }) := by
  unfold mutex.key win.enter uni.mutex_lock
  by_cases hw : e.WIN32 = true <;> by_cases hh : m.prim.held = true <;> simp [hw, hh]

theorem MxInv.mx_acquire {out : Out} (e : Env) (a b : Nat) (u : Unit) (r : mutex × Out)
    (ks : List MutexKey) (r' : mutex × Out) (k : MutexKey) (h : MxInv out a b r ks)
    (ha : (mutex.iface e).acquire u r = some (r', k)) : MxInv out (a + 1) b r' (k :: ks) := by
  obtain ⟨h1, h2, h3, h4, h5, h6⟩ := h
  simp only [mutex.iface, mutex.key_eq, Option.map_eq_some', Prod.mk.injEq] at ha
  obtain ⟨⟨m', k'⟩, hk, rfl, rfl⟩ := ha
  by_cases hh : r.1.prim.held = true
  · simp [hh] at hk
  · simp only [hh, Bool.false_eq_true, if_false, Option.some.injEq, Prod.mk.injEq] at hk
    obtain ⟨rfl, rfl⟩ := hk
    rcases h6 with ⟨-, rfl⟩ | ⟨hh', -⟩
    · exact ⟨h1, by simp [h2], by simp [h3], by simp at h4 ⊢; omega, by simp,
        Or.inr ⟨rfl, _, rfl⟩⟩
    · exact absurd hh' hh

/-- What the end of the live key does to the mutex. -/
theorem MxInv.mx_deleter_eq {out : Out} {a b : Nat} (e : Env) {r : mutex × Out} {k : MutexKey}
    {ks : List MutexKey} (h : MxInv out a b r (k :: ks)) :
    (mutex.iface e).deleter k r =
      some ({ r.1 with prim := { r.1.prim with held := false,
                                               released := r.1.prim.released + 1 } }, r.2) ∧
    ks = [] := by
  obtain ⟨h1, h2, h3, h4, h5, h6⟩ := h
  have hk : (r.1.this == k.that) = true := by
    have := h5 k (List.mem_cons_self _ _)
    simp [this]
  rcases h6 with ⟨-, hn⟩ | ⟨hh, k', hk'⟩
  · simp at hn
  · simp only [List.cons.injEq] at hk'
    refine ⟨?_, hk'.2⟩
    simp only [mutex.iface, MutexKey.deleter]
    rw [hk, assert_true]
    by_cases hw : e.WIN32 = true <;> simp [hw, win.leave, uni.mutex_unlock, hh]

theorem MxInv.mx_release {out : Out} (e : Env) (a b : Nat) (r : mutex × Out)
    (k : MutexKey) (ks : List MutexKey) (r' : mutex × Out) (h : MxInv out a b r (k :: ks))
    (hd : (mutex.iface e).deleter k r = some r') : MxInv out a (b + 1) r' ks := by
  obtain ⟨heq, hnil⟩ := h.mx_deleter_eq e
  rw [heq] at hd
  simp only [Option.some.injEq] at hd
  subst hd
  subst hnil
  obtain ⟨h1, h2, h3, h4, h5, h6⟩ := h
  exact ⟨h1, h2, by simp [h3], by simp at h4 ⊢; omega, by simp, Or.inl ⟨rfl, rfl⟩⟩

/-- Every state a mutex reaches from its construction satisfies the
invariant. -/
theorem MxInv.mx_run {e : Env} {this : Ptr} {out : Out} {ops : List (Op Unit)}
    {w : Heap (mutex × Out) MutexKey}
    (hrun : Heap.run (mutex.iface e) (Heap.init (mutex.ctor this, out)) ops = some w) :
    MxInv out w.nctrl w.released.length w.res w.live :=
  Heap.run_live (mutex.iface e) (MxInv out) MxInv.mx_perm (MxInv.mx_acquire e)
    (MxInv.mx_release e) ops (Heap.init (mutex.ctor this, out)) w
    ⟨rfl, rfl, rfl, rfl, by simp [Heap.init, Heap.live], Or.inl ⟨rfl, rfl⟩⟩ hrun


end sys

/-! ## The claims -/

namespace sys

open fwd

/-- C1. In every state a guarded pointer reaches from its construction by
token creations, handle copies and moves, and handle destructions, at most
one writer token is live, and no reader token is live while a writer token
is; `writer()` completes exactly when no token is live and `reader()` exactly
when no writer token is live. -/
theorem exclusive_ptr_writer_exclusion (e : Env) (lockAt ptr : Ptr) (out : Out)
    (r0 : exclusive_ptr × Out) (h0 : exclusive_ptr.ctor e lockAt ptr out = some r0)
    (ops : List (Op Mode)) (w : Heap (exclusive_ptr × Out) Token)
    (hrun : Heap.run (exclusive_ptr.iface e) (Heap.init r0) ops = some w) :
    writers w ≤ 1 ∧ (1 ≤ writers w → readers w = 0) ∧
    ((w.step (exclusive_ptr.iface e) (.make .Writer)).isSome ↔ w.live = []) ∧
    ((w.step (exclusive_ptr.iface e) (.make .Reader)).isSome ↔ writers w = 0) := by
  have hI := ExInv.ex_run h0 hrun
  rw [step_make_isSome, step_make_isSome]
  rcases hI.ex_cases with ⟨hs, hl⟩ | ⟨n, hs, hn, hlen, hall⟩ | ⟨hs, t, hl, hm⟩
  · simp [writers, readers, hl, hs, LockState.acquireExclusive, LockState.acquireShared]
  · have hw : writers w = 0 := by
      simp only [writers, List.countP_eq_zero]
      intro t ht
      simp [hall t ht]
    have hne : w.live ≠ [] := by
      intro h
      rw [h] at hlen
      simp at hlen
      omega
    simp [hw, hs, hne, LockState.acquireExclusive, LockState.acquireShared]
  · simp [writers, readers, hl, hs, hm, LockState.acquireExclusive, LockState.acquireShared]

/-- Witness of C1: a reader token is created and destroyed, then a writer
token is created; one writer token is live and no further token can be
created. -/
theorem exclusive_ptr_writer_exclusion_witness :
    exclusive_ptr.ctor envPosix 100 7 [] = some sampleGuard ∧
    Heap.run (exclusive_ptr.iface envPosix) (Heap.init sampleGuard)
      [.make .Reader, .drop 0, .make .Writer] = some sampleWriting ∧
    (writers sampleWriting ≤ 1 ∧ (1 ≤ writers sampleWriting → readers sampleWriting = 0) ∧
      ((sampleWriting.step (exclusive_ptr.iface envPosix) (.make .Writer)).isSome ↔
        sampleWriting.live = []) ∧
      ((sampleWriting.step (exclusive_ptr.iface envPosix) (.make .Reader)).isSome ↔
        writers sampleWriting = 0)) :=
  ⟨rfl, rfl, exclusive_ptr_writer_exclusion envPosix 100 7 [] sampleGuard rfl
    [.make .Reader, .drop 0, .make .Writer] sampleWriting rfl⟩

/-- C2. After every finite sequence of token creations, handle copies, moves
and destructions on a guarded pointer, the acquisitions counted on its lock
exceed the releases by the number of live tokens; the acquisitions are the
tokens created and the releases are the tokens ended; once no token is live
(in particular once every handle is destroyed) the two counts agree; and the
release of a token has happened no time while a handle owns it and exactly
once after. -/
theorem exclusive_ptr_acquire_release_balance (e : Env) (lockAt ptr : Ptr) (out : Out)
    (r0 : exclusive_ptr × Out) (h0 : exclusive_ptr.ctor e lockAt ptr out = some r0)
    (ops : List (Op Mode)) (w : Heap (exclusive_ptr × Out) Token)
    (hrun : Heap.run (exclusive_ptr.iface e) (Heap.init r0) ops = some w) :
    w.res.1.lock.prim.acquired = w.res.1.lock.prim.released + w.live.length ∧
    w.res.1.lock.prim.acquired = w.nctrl ∧
    w.res.1.lock.prim.released = w.released.length ∧
    (w.live = [] → w.res.1.lock.prim.acquired = w.res.1.lock.prim.released) ∧
    (w.handles = [] → w.res.1.lock.prim.acquired = w.res.1.lock.prim.released) ∧
    (∀ c, c < w.nctrl → w.released.count c = if w.owned c then 0 else 1) := by
  have hI := ExInv.ex_run h0 hrun
  have hw : w.WF := Heap.WF.wf_run ops (Heap.WF.wf_init r0) hrun
  obtain ⟨-, -, ha, hb, -, -, hbal, -⟩ := hI
  have hbal' : w.res.1.lock.prim.acquired = w.res.1.lock.prim.released + w.live.length := by
    simpa using hbal
  have hnil : w.live = [] → w.res.1.lock.prim.acquired = w.res.1.lock.prim.released := by
    intro hl
    rw [hl] at hbal'
    simpa using hbal'
  refine ⟨hbal', ha, hb, hnil, fun hh => hnil ?_, fun c hc => hw.count_released c hc⟩
  cases hl : w.ctrls with
  | nil => simp [Heap.live, hl]
  | cons b bs =>
    obtain ⟨x, hx, -⟩ := hw.live_owned b (by simp [hl])
    rw [hh] at hx
    simp at hx

/-- Witness of C2: two reader tokens, the first moved and both ended. -/
theorem exclusive_ptr_acquire_release_balance_witness :
    exclusive_ptr.ctor envPosix 100 7 [] = some sampleGuard ∧
    Heap.run (exclusive_ptr.iface envPosix) (Heap.init sampleGuard)
      [.make .Reader, .make .Reader, .move 0, .drop 0, .drop 2, .drop 1] = some sampleDone ∧
    (sampleDone.res.1.lock.prim.acquired =
        sampleDone.res.1.lock.prim.released + sampleDone.live.length ∧
      sampleDone.res.1.lock.prim.acquired = sampleDone.nctrl ∧
      sampleDone.res.1.lock.prim.released = sampleDone.released.length ∧
      (sampleDone.live = [] →
        sampleDone.res.1.lock.prim.acquired = sampleDone.res.1.lock.prim.released) ∧
      (sampleDone.handles = [] →
        sampleDone.res.1.lock.prim.acquired = sampleDone.res.1.lock.prim.released) ∧
      (∀ c, c < sampleDone.nctrl →
        sampleDone.released.count c = if sampleDone.owned c then 0 else 1)) :=
  ⟨rfl, rfl, exclusive_ptr_acquire_release_balance envPosix 100 7 [] sampleGuard rfl
    [.make .Reader, .make .Reader, .move 0, .drop 0, .drop 2, .drop 1] sampleDone rfl⟩

/-- C3. For the tokens of a guarded pointer (`reader()`, `writer()`), of a
reader-writer lock (`reader()`, `writer()`) and of a mutex (`key()`), however
the handles are copied and moved: the lock is released once per token, at the
destruction of the last handle that owns the token and not before; destroying
a moved-from handle releases nothing; and moving the only handle of a token,
then destroying both the moved-from and the moved-to handle, releases exactly
once. -/
theorem token_released_once (e : Env) (lockAt ptr this : Ptr) (out : Out)
    (r0 : exclusive_ptr × Out) (h0 : exclusive_ptr.ctor e lockAt ptr out = some r0) :
    ReleasedOnce (exclusive_ptr.iface e) (fun r => r.1.lock.prim.released) r0 ∧
    ReleasedOnce (rwlock.iface e) (fun r => r.1.prim.released) (rwlock.ctor this, out) ∧
    ReleasedOnce (mutex.iface e) (fun r => r.1.prim.released) (mutex.ctor this, out) := by
  refine ⟨?_, ?_, ?_⟩
  · exact releasedOnce_of_inv (exclusive_ptr.iface e) _ (ExInv ptr r0.2) r0 ExInv.ex_perm
      (ExInv.ex_acquire e) (ExInv.ex_release e) (ExInv.ex_ctor h0)
      (fun a b r l h => h.2.2.2.1) (fun a b r d l h => ⟨_, h.ex_deleter_eq e⟩)
  · exact releasedOnce_of_inv (rwlock.iface e) _ (RwWorldInv out) _ RwWorldInv.rww_perm
      (RwWorldInv.rww_acquire e) (RwWorldInv.rww_release e)
      ⟨rfl, rfl, rfl, RwInv.rw_init this⟩
      (fun a b r l h => h.2.2.1) (fun a b r d l h => ⟨_, h.2.2.2.rw_deleter_eq e r.2⟩)
  · exact releasedOnce_of_inv (mutex.iface e) _ (MxInv out) _ MxInv.mx_perm
      (MxInv.mx_acquire e) (MxInv.mx_release e)
      ⟨rfl, rfl, rfl, rfl, by simp, Or.inl ⟨rfl, rfl⟩⟩
      (fun a b r l h => h.2.2.1) (fun a b r d l h => ⟨_, (h.mx_deleter_eq e).1⟩)

/-- Witness of C3: the only handle of a reader token is moved, then the
moved-from and the moved-to handle are destroyed; the token is released at the
second destruction only. -/
theorem token_released_once_witness :
    exclusive_ptr.ctor envPosix 100 7 [] = some sampleGuard ∧
    Heap.run (exclusive_ptr.iface envPosix) (Heap.init sampleGuard) [.make .Reader] =
      some sampleReading ∧
    ∃ w1 w2 w3,
      sampleReading.step (exclusive_ptr.iface envPosix) (.move 0) = some w1 ∧
      w1.step (exclusive_ptr.iface envPosix) (.drop 0) = some w2 ∧
      w2.step (exclusive_ptr.iface envPosix) (.drop 1) = some w3 ∧
      w1.released = [] ∧ w2.released = [] ∧ w3.released = [0] :=
  ⟨rfl, rfl,
    ((token_released_once envPosix 100 7 200 [] sampleGuard rfl).1 [.make .Reader]
      sampleReading rfl).2.2.2.2 ⟨0, some 0⟩ (by simp [sampleReading]) 0 rfl
      (by simp [sampleReading])⟩

/-- C4, as stated, fails: on a guarded pointer with one reader token live (so
no writer token is live), one more `reader()` completes and leaves the lock
in `Shared 2`, not in `Shared 1`. -/
theorem readers_share_counterexample :
    exclusive_ptr.ctor envPosix 100 7 [] = some sampleGuard ∧
    Heap.run (exclusive_ptr.iface envPosix) (Heap.init sampleGuard) [.make .Reader] =
      some sampleReading ∧
    writers sampleReading = 0 ∧
    ∃ w, Heap.run (exclusive_ptr.iface envPosix) sampleReading
        (List.replicate 1 (.make .Reader)) = some w ∧
      w.res.1.lock.prim.state = .Shared 2 ∧ w.res.1.lock.prim.state ≠ .Shared 1 :=
  ⟨rfl, rfl, rfl, _, rfl, rfl, by decide⟩

/-- C4, amended. From every reachable state of a guarded pointer in which no
writer token is live, with `readers w` reader tokens live, `k ≥ 1` successive
`reader()` calls all complete; afterwards the `k` new reader tokens are live
together with the tokens that were live before, no writer token is live, and
the lock is in `Shared (readers w + k)`. -/
theorem readers_share (e : Env) (lockAt ptr : Ptr) (out : Out)
    (r0 : exclusive_ptr × Out) (h0 : exclusive_ptr.ctor e lockAt ptr out = some r0)
    (ops : List (Op Mode)) (w : Heap (exclusive_ptr × Out) Token)
    (hrun : Heap.run (exclusive_ptr.iface e) (Heap.init r0) ops = some w)
    (hnw : writers w = 0) (k : Nat) (hk : 1 ≤ k) :
    ∃ w', Heap.run (exclusive_ptr.iface e) w (List.replicate k (.make .Reader)) = some w' ∧
      readers w' = readers w + k ∧ writers w' = 0 ∧
      w'.res.1.lock.prim.state = .Shared (readers w + k) ∧
      (∀ i, w.nctrl ≤ i → i < w.nctrl + k →
        ∃ b ∈ w'.ctrls, b.id = i ∧ b.del.key.mode = .Reader) ∧
      (∀ b ∈ w.ctrls, b ∈ w'.ctrls) := by
  obtain ⟨w', hrun', hI', hw', hr', hsub, hnew⟩ :=
    readers_run e ptr r0.2 k w (ExInv.ex_run h0 hrun) hnw
  refine ⟨w', hrun', hr', hw', ?_, hnew, hsub⟩
  have hst := hI'.state_eq hw'
  have hr'' : List.countP (fun t => decide (t.key.mode = Mode.Reader)) w'.live =
      readers w + k := hr'
  rw [hr'', if_neg (by omega)] at hst
  exact hst

/-- Witness of amended C4: two more readers next to a live one. -/
theorem readers_share_witness :
    exclusive_ptr.ctor envPosix 100 7 [] = some sampleGuard ∧
    Heap.run (exclusive_ptr.iface envPosix) (Heap.init sampleGuard) [.make .Reader] =
      some sampleReading ∧
    writers sampleReading = 0 ∧ 1 ≤ 2 ∧
    ∃ w', Heap.run (exclusive_ptr.iface envPosix) sampleReading
        (List.replicate 2 (.make .Reader)) = some w' ∧
      readers w' = readers sampleReading + 2 ∧ writers w' = 0 ∧
      w'.res.1.lock.prim.state = .Shared (readers sampleReading + 2) ∧
      (∀ i, sampleReading.nctrl ≤ i → i < sampleReading.nctrl + 2 →
        ∃ b ∈ w'.ctrls, b.id = i ∧ b.del.key.mode = .Reader) ∧
      (∀ b ∈ sampleReading.ctrls, b ∈ w'.ctrls) :=
  ⟨rfl, rfl, rfl, by decide, readers_share envPosix 100 7 [] sampleGuard rfl [.make .Reader]
    sampleReading rfl rfl 2 (by decide)⟩

/-- C5. A self-guarded object constructed at address `this` hands `this` to
its embedded guarded pointer, and in every state reached afterwards `get()`
returns `this`, every token that `reader()` or `writer()` returns delivers
`this`, and so does every live token handle; right after construction both
`reader()` and `writer()` complete. -/
theorem exclusive_self_reference (e : Env) (this lockAt : Ptr) (out : Out) (x : exclusive)
    (o : Out) (h0 : exclusive.ctor e this lockAt out = some (x, o))
    (ops : List (Op Mode)) (w : Heap (exclusive_ptr × Out) Token)
    (hrun : Heap.run (exclusive_ptr.iface e) (Heap.init (x.that, o)) ops = some w) :
    x.that.that = this ∧
    ((exclusive.mk w.res.1).get).1 = this ∧
    (∀ y t, (exclusive.mk w.res.1).reader e = some (y, t) → t.that = this) ∧
    (∀ y t, (exclusive.mk w.res.1).writer e = some (y, t) → t.that = this) ∧
    (∀ m w', w.step (exclusive_ptr.iface e) (.make m) = some w' →
      deliver w' w.nhandle = some this) ∧
    (∀ h p, deliver w h = some p → p = this) ∧
    (x.reader e).isSome ∧ (x.writer e).isSome := by
  have hc : exclusive_ptr.ctor e lockAt this out = some (x.that, o) := by
    simp only [exclusive.ctor, Option.map_eq_some'] at h0
    obtain ⟨⟨p, o'⟩, hp, heq⟩ := h0
    simp only [Prod.mk.injEq] at heq
    obtain ⟨rfl, rfl⟩ := heq
    exact hp
  have hI := ExInv.ex_run hc hrun
  obtain ⟨h1, -, -, -, h3, -⟩ := hI
  have hx : x.that.that = this ∧ x.that.lock.prim.state = .Unlocked := by
    simp only [exclusive_ptr.ctor, Option.map_eq_some'] at hc
    obtain ⟨o', -, heq⟩ := hc
    simp only [Prod.mk.injEq] at heq
    obtain ⟨hxe, -⟩ := heq
    rw [← hxe]
    exact ⟨rfl, rfl⟩
  refine ⟨hx.1, h1, ?_, ?_, ?_, ?_, ?_, ?_⟩
  · intro y t hr
    simp only [exclusive.reader, exclusive_ptr.reader, Option.map_map, Option.map_eq_some',
      Function.comp, Prod.mk.injEq] at hr
    obtain ⟨lk, -, -, rfl⟩ := hr
    exact h1
  · intro y t hr
    simp only [exclusive.writer, exclusive_ptr.writer, Option.map_map, Option.map_eq_some',
      Function.comp, Prod.mk.injEq] at hr
    obtain ⟨lk, -, -, rfl⟩ := hr
    exact h1
  · intro m w' hs
    rw [step_make_eq] at hs
    simp only [Option.map_eq_some'] at hs
    obtain ⟨s, -, rfl⟩ := hs
    simp [deliver, Heap.handle?, h1]
  · intro h p hd
    simp only [deliver, Option.bind_eq_some, Option.map_eq_some'] at hd
    obtain ⟨hd', -, c, -, b, hb, rfl⟩ := hd
    exact h3 b.del (List.mem_map_of_mem _ (List.mem_of_find?_eq_some hb))
  · simp [exclusive.reader, exclusive_ptr.reader, rwlock.reader_eq, hx.2,
      LockState.acquireShared]
  · simp [exclusive.writer, exclusive_ptr.writer, rwlock.writer_eq, hx.2,
      LockState.acquireExclusive]

/-- Witness of C5: the self-guarded object at address 7 with a writer token
live. -/
theorem exclusive_self_reference_witness :
    exclusive.ctor envPosix 7 100 [] = some (sampleSelf, []) ∧
    Heap.run (exclusive_ptr.iface envPosix) (Heap.init (sampleSelf.that, []))
      [.make .Reader, .drop 0, .make .Writer] = some sampleWriting ∧
    ((exclusive.mk sampleWriting.res.1).get).1 = 7 ∧
    deliver sampleWriting 1 = some 7 :=
  ⟨rfl, rfl,
    (exclusive_self_reference envPosix 7 100 [] sampleSelf [] rfl
      [.make .Reader, .drop 0, .make .Writer] sampleWriting rfl).2.1, rfl⟩

/-- C6. In every state a guarded pointer reaches from its construction on
`ptr`, `get()` returns `ptr` and leaves the whole state as it is: the lock
state, both counters of the lock, the live tokens and the handles; being a
total function it completes in every state. -/
theorem exclusive_ptr_get_frame (e : Env) (lockAt ptr : Ptr) (out : Out)
    (r0 : exclusive_ptr × Out) (h0 : exclusive_ptr.ctor e lockAt ptr out = some r0)
    (ops : List (Op Mode)) (w : Heap (exclusive_ptr × Out) Token)
    (hrun : Heap.run (exclusive_ptr.iface e) (Heap.init r0) ops = some w) :
    get w = (ptr, w) ∧ w.res.1.get = (ptr, w.res.1) := by
  have hI := ExInv.ex_run h0 hrun
  obtain ⟨h1, -⟩ := hI
  simp [get, exclusive_ptr.get, h1]

/-- Witness of C6: `get()` while a writer token is live. -/
theorem exclusive_ptr_get_frame_witness :
    exclusive_ptr.ctor envPosix 100 7 [] = some sampleGuard ∧
    Heap.run (exclusive_ptr.iface envPosix) (Heap.init sampleGuard)
      [.make .Reader, .drop 0, .make .Writer] = some sampleWriting ∧
    writers sampleWriting = 1 ∧
    (get sampleWriting = (7, sampleWriting) ∧
      sampleWriting.res.1.get = (7, sampleWriting.res.1)) :=
  ⟨rfl, rfl, rfl, exclusive_ptr_get_frame envPosix 100 7 [] sampleGuard rfl
    [.make .Reader, .drop 0, .make .Writer] sampleWriting rfl⟩

/-- C7. On a reader-writer lock used through `reader()` and `writer()`, on
the POSIX and on the Windows branch alike: `reader()` acquires in shared mode
and returns a reader key, `writer()` acquires in exclusive mode and returns a
writer key; the deleter of a live reader key performs the shared release
(`Shared (n+1)` to `Shared n`, `Shared 1` to `Unlocked`) and the deleter of a
live writer key the exclusive release (`Exclusive` to `Unlocked`); each
counts as one release. -/
theorem rwlock_release_matches_mode (e : Env) (this : Ptr) (out : Out) (ops : List (Op Mode))
    (w : Heap (rwlock × Out) RwKey)
    (hrun : Heap.run (rwlock.iface e) (Heap.init (rwlock.ctor this, out)) ops = some w) :
    (∀ w', w.step (rwlock.iface e) (.make .Reader) = some w' →
      w.res.1.prim.state.acquireShared = some w'.res.1.prim.state ∧
      ∃ b, w'.ctrls = b :: w.ctrls ∧ b.del.mode = .Reader) ∧
    (∀ w', w.step (rwlock.iface e) (.make .Writer) = some w' →
      w.res.1.prim.state.acquireExclusive = some w'.res.1.prim.state ∧
      ∃ b, w'.ctrls = b :: w.ctrls ∧ b.del.mode = .Writer) ∧
    (∀ k ∈ w.live, k.mode = .Reader →
      k.unlock e w.res.1.prim = w.res.1.prim.release LockState.releaseShared ∧
      ∃ n l', w.res.1.prim.state = .Shared (n + 1) ∧
        k.deleter e w.res.1 w.res.2 = some (l', w.res.2) ∧
        l'.prim.state = (if n = 0 then .Unlocked else .Shared n) ∧
        l'.prim.released = w.res.1.prim.released + 1 ∧
        l'.prim.acquired = w.res.1.prim.acquired) ∧
    (∀ k ∈ w.live, k.mode = .Writer →
      k.unlock e w.res.1.prim = w.res.1.prim.release LockState.releaseExclusive ∧
      ∃ l', w.res.1.prim.state = .Exclusive ∧
        k.deleter e w.res.1 w.res.2 = some (l', w.res.2) ∧
        l'.prim.state = .Unlocked ∧
        l'.prim.released = w.res.1.prim.released + 1 ∧
        l'.prim.acquired = w.res.1.prim.acquired) := by
  obtain ⟨-, -, -, hI⟩ := RwWorldInv.rww_run hrun
  refine ⟨?_, ?_, ?_, ?_⟩
  · intro w' hs
    simp only [Heap.step, rwlock.iface, rwlock.reader_eq, Option.map_map,
      Option.map_eq_some'] at hs
    obtain ⟨s, hs1, rfl⟩ := hs
    exact ⟨hs1, _, rfl, rfl⟩
  · intro w' hs
    simp only [Heap.step, rwlock.iface, rwlock.writer_eq, Option.map_map,
      Option.map_eq_some'] at hs
    obtain ⟨s, hs1, rfl⟩ := hs
    exact ⟨hs1, _, rfl, rfl⟩
  · intro k hk hm
    have hp := List.perm_cons_erase hk
    have hI' := hI.rw_perm hp
    have hdel := hI'.rw_deleter_eq e w.res.2
    obtain ⟨-, -, h3⟩ := hI'
    cases hs : w.res.1.prim.state with
    | Unlocked => rw [hs] at h3; simp at h3
    | Exclusive =>
      rw [hs] at h3
      simp only at h3
      obtain ⟨k', hkk, hm'⟩ := h3
      simp only [List.cons.injEq] at hkk
      rw [← hkk.1, hm] at hm'
      exact absurd hm' (by decide)
    | Shared n =>
      rw [hs] at h3
      simp only [List.length_cons] at h3
      obtain ⟨hlen, -, -⟩ := h3
      refine ⟨?_, (w.live.erase k).length, _, by rw [← hlen], hdel, ?_, rfl, rfl⟩
      · by_cases hw : e.WIN32 = true <;>
          simp [RwKey.unlock, hw, hm, win.unlock, uni.unlock, RwPrim.release, hs]
      · simp only
        by_cases hn : w.live.erase k = [] <;> simp [hn]
  · intro k hk hm
    have hp := List.perm_cons_erase hk
    have hI' := hI.rw_perm hp
    have hdel := hI'.rw_deleter_eq e w.res.2
    obtain ⟨-, -, h3⟩ := hI'
    cases hs : w.res.1.prim.state with
    | Unlocked => rw [hs] at h3; simp at h3
    | Shared n =>
      rw [hs] at h3
      simp only at h3
      have := h3.2.2 k (List.mem_cons_self _ _)
      rw [hm] at this
      exact absurd this (by decide)
    | Exclusive =>
      rw [hs] at h3
      simp only at h3
      obtain ⟨k', hkk, -⟩ := h3
      simp only [List.cons.injEq] at hkk
      refine ⟨?_, _, rfl, hdel, by simp [hkk.2], rfl, rfl⟩
      by_cases hw : e.WIN32 = true <;>
        simp [RwKey.unlock, hw, hm, win.xunlock, uni.unlock, RwPrim.release, hs]

/-- Witness of C7: two reader keys on the Windows branch. -/
theorem rwlock_release_matches_mode_witness :
    Heap.run (rwlock.iface envWin) (Heap.init (rwlock.ctor 100, []))
      [.make .Reader, .make .Reader] = some sampleShared ∧
    ∃ n l', sampleShared.res.1.prim.state = .Shared (n + 1) ∧
      RwKey.deleter envWin { that := 100, mode := .Reader } sampleShared.res.1
        sampleShared.res.2 = some (l', sampleShared.res.2) ∧
      l'.prim.state = (if n = 0 then .Unlocked else .Shared n) ∧
      l'.prim.released = sampleShared.res.1.prim.released + 1 ∧
      l'.prim.acquired = sampleShared.res.1.prim.acquired :=
  ⟨rfl, ((rwlock_release_matches_mode envWin 100 [] [.make .Reader, .make .Reader]
    sampleShared rfl).2.2.1 { that := 100, mode := .Reader } (by decide) rfl).2⟩

/-- C8, as stated, fails: in a debug build (`NDEBUG` not defined) in which
`sys::debug` is not set, the construction of a guarded pointer from the null
pointer completes, silently, and the guarded pointer holds the null pointer;
with `sys::debug` set it completes as well, after one warning. -/
theorem exclusive_ptr_ctor_null_counterexample :
    envQuiet.NDEBUG = false ∧ envPosix.NDEBUG = false ∧
    exclusive_ptr.ctor envQuiet 100 nullptr [] =
      some ({ lock := rwlock.ctor 100, that := nullptr }, []) ∧
    exclusive_ptr.ctor envPosix 100 nullptr [] =
      some ({ lock := rwlock.ctor 100, that := nullptr },
        ["sync.hpp:123 exclusive_ptr nullptr != ptr"]) :=
  ⟨rfl, rfl, rfl, by decide⟩

/-- C8, amended. The constructor of a guarded pointer checks its argument by
`assert`, which only warns: for a null argument in a debug build with
`sys::debug` set it calls `sys::impl::warn` on the failed assertion and
completes when that call returns; in every other case it completes at once
and reports nothing.  Whenever it completes, the guarded pointer holds the
argument, null or not, and holds it in every state reached afterwards. -/
theorem exclusive_ptr_ctor_keeps_pointer (e : Env) (lockAt ptr : Ptr) (out : Out) :
    exclusive_ptr.ctor e lockAt ptr out =
      (if ptr = nullptr ∧ e.NDEBUG = false ∧ e.debug = true then
        (e.warnImpl (fmt.err e "sync.hpp" 123 "exclusive_ptr" "nullptr != ptr") out).map
          fun o => ({ lock := rwlock.ctor lockAt, that := ptr }, o)
      else some ({ lock := rwlock.ctor lockAt, that := ptr }, out)) ∧
    ∀ r0, exclusive_ptr.ctor e lockAt ptr out = some r0 →
      r0.1.that = ptr ∧
      ∀ ops w, Heap.run (exclusive_ptr.iface e) (Heap.init r0) ops = some w →
        w.res.1.that = ptr := by
  constructor
  · by_cases hp : ptr = nullptr
    · subst hp
      by_cases hn : e.NDEBUG = true <;> by_cases hd : e.debug = true <;>
        simp [exclusive_ptr.ctor, assert, warn, hn, hd, Option.map_map, Function.comp]
    · have hp' : ¬ nullptr = ptr := fun h => hp h.symm
      by_cases hn : e.NDEBUG = true <;>
        simp [exclusive_ptr.ctor, assert, hp, hp', hn]
  · intro r0 h0
    refine ⟨(ExInv.ex_ctor h0).1, fun ops w hrun => (ExInv.ex_run h0 hrun).1⟩

/-- Witness of amended C8: a guarded pointer built on the null pointer in a
debug build with `sys::debug` set, and a reader token on it. -/
theorem exclusive_ptr_ctor_keeps_pointer_witness :
    exclusive_ptr.ctor envPosix 100 nullptr [] =
      some ({ lock := rwlock.ctor 100, that := nullptr },
        ["sync.hpp:123 exclusive_ptr nullptr != ptr"]) ∧
    ∀ ops w, Heap.run (exclusive_ptr.iface envPosix)
        (Heap.init ({ lock := rwlock.ctor 100, that := nullptr },
          ["sync.hpp:123 exclusive_ptr nullptr != ptr"])) ops = some w →
      w.res.1.that = nullptr :=
  ⟨by decide,
    ((exclusive_ptr_ctor_keeps_pointer envPosix 100 nullptr []).2 _ (by decide)).2⟩

/-- C9. `mutex::key()` completes exactly when no key is live; it then
acquires the mutex once and returns a token that stores the address of the
mutex; the deleter of the live key performs one release of that mutex.  So
along every sequence of `key()` calls, handle copies, moves and destructions
at most one key token is live, the mutex is held exactly while one is, the
acquisitions exceed the releases by the number of live keys, and the release
of a token has happened no time while a handle owns it and once after. -/
theorem mutex_key_exclusive (e : Env) (this : Ptr) (out : Out) (ops : List (Op Unit))
    (w : Heap (mutex × Out) MutexKey)
    (hrun : Heap.run (mutex.iface e) (Heap.init (mutex.ctor this, out)) ops = some w) :
    w.live.length ≤ 1 ∧
    (w.res.1.prim.held = true ↔ w.live ≠ []) ∧
    w.res.1.prim.acquired = w.res.1.prim.released + w.live.length ∧
    w.res.1.prim.released = w.released.length ∧
    ((w.step (mutex.iface e) (.make ())).isSome ↔ w.live = []) ∧
    (∀ w', w.step (mutex.iface e) (.make ()) = some w' →
      w'.res.1.prim.held = true ∧
      w'.res.1.prim.acquired = w.res.1.prim.acquired + 1 ∧
      w'.res.1.prim.released = w.res.1.prim.released ∧
      ∃ b, w'.ctrls = b :: w.ctrls ∧ b.del.that = w.res.1.this) ∧
    (∀ k ∈ w.live, k.that = w.res.1.this ∧
      ∃ m', k.deleter e w.res.1 w.res.2 = some (m', w.res.2) ∧
        m'.this = w.res.1.this ∧ m'.prim.held = false ∧
        m'.prim.released = w.res.1.prim.released + 1 ∧
        m'.prim.acquired = w.res.1.prim.acquired) ∧
    (∀ c, c < w.nctrl → w.released.count c = if w.owned c then 0 else 1) := by
  have hI := MxInv.mx_run hrun
  have hw : w.WF := Heap.WF.wf_run ops (Heap.WF.wf_init _) hrun
  obtain ⟨h1, h2, h3, h4, h5, h6⟩ := hI
  have hsome : (w.step (mutex.iface e) (.make ())).isSome = !w.res.1.prim.held := by
    simp only [Heap.step, mutex.iface, mutex.key_eq]
    cases w.res.1.prim.held <;> simp
  refine ⟨?_, ?_, by omega, h3, ?_, ?_, ?_, fun c hc => hw.count_released c hc⟩
  · rcases h6 with ⟨-, hl⟩ | ⟨-, k, hl⟩ <;> simp [hl]
  · rcases h6 with ⟨hh, hl⟩ | ⟨hh, k, hl⟩ <;> simp [hl, hh]
  · rw [hsome]
    rcases h6 with ⟨hh, hl⟩ | ⟨hh, k, hl⟩ <;> simp [hl, hh]
  · intro w' hs
    simp only [Heap.step, mutex.iface, mutex.key_eq, Option.map_map, Option.map_eq_some'] at hs
    obtain ⟨mk, hmk, rfl⟩ := hs
    by_cases hh : w.res.1.prim.held = true
    · simp [hh] at hmk
    · simp only [hh, Bool.false_eq_true, if_false, Option.some.injEq] at hmk
      subst hmk
      exact ⟨rfl, rfl, rfl, _, rfl, rfl⟩
  · intro k hk
    have hp := List.perm_cons_erase hk
    have hI' : MxInv out w.nctrl w.released.length w.res (k :: w.live.erase k) :=
      MxInv.mx_perm _ _ _ _ _ hp ⟨h1, h2, h3, h4, h5, h6⟩
    exact ⟨h5 k hk, _, (hI'.mx_deleter_eq e).1, rfl, rfl, rfl, rfl⟩

/-- Witness of C9: the second key of a mutex, the first one destroyed. -/
theorem mutex_key_exclusive_witness :
    Heap.run (mutex.iface envPosix) (Heap.init (mutex.ctor 200, []))
      [.make (), .drop 0, .make ()] = some sampleHeld ∧
    sampleHeld.live.length ≤ 1 ∧
    (sampleHeld.res.1.prim.held = true ↔ sampleHeld.live ≠ []) ∧
    ((sampleHeld.step (mutex.iface envPosix) (.make ())).isSome ↔ sampleHeld.live = []) :=
  ⟨rfl,
    (mutex_key_exclusive envPosix 200 [] [.make (), .drop 0, .make ()] sampleHeld rfl).1,
    (mutex_key_exclusive envPosix 200 [] [.make (), .drop 0, .make ()] sampleHeld rfl).2.1,
    (mutex_key_exclusive envPosix 200 [] [.make (), .drop 0, .make ()] sampleHeld rfl).2.2.2.2.1⟩

end sys

namespace env

theorem length_resize (s : List Char) (n : Nat) (c : Char) : (resize s n c).length = n := by
  simp only [resize, List.length_append, List.length_take, List.length_replicate]
  omega

theorem resize_append_left (a b : List Char) (c : Char) : resize (a ++ b) a.length c = a := by
  simp [resize, List.take_append_eq_append_take]

theorem strftime_fit (L : Libc) (buf : List Char) (max : Nat) (format : List Char)
    (d : fmt.date) (h : (L.expand d format).length + 1 ≤ max) :
    strftime L buf max format d =
      ((L.expand d format).length,
        L.expand d format ++ ([Char.ofNat 0] ++ buf.drop ((L.expand d format).length + 1))) := by
  simp [strftime, h]

theorem strftime_fail (L : Libc) (buf : List Char) (max : Nat) (format : List Char)
    (d : fmt.date) (h : ¬ (L.expand d format).length + 1 ≤ max) :
    strftime L buf max format d = (0, resize (L.junk buf d format) buf.length (Char.ofNat 0)) := by
  simp [strftime, h]

theorem date_loop_fit (L : Libc) (d : fmt.date) (format : List Char) (n : Nat)
    (buf : List Char) (h0 : 0 < (L.expand d format).length)
    (h : (L.expand d format).length + 1 ≤ buf.length) :
    date.loop L d format (n + 1) buf = L.expand d format := by
  simp only [date.loop, strftime_fit L buf buf.length format d h, h0, if_true]
  exact resize_append_left _ _ _

theorem date_loop_fail (L : Libc) (d : fmt.date) (format : List Char) (n : Nat)
    (buf : List Char)
    (h : ¬ (L.expand d format).length + 1 ≤ buf.length ∨ (L.expand d format).length = 0) :
    ∃ buf', buf'.length = buf.length * 2 ∧
      date.loop L d format (n + 1) buf = date.loop L d format n buf' := by
  have hz : (strftime L buf buf.length format d).1 = 0 := by
    by_cases hfit : (L.expand d format).length + 1 ≤ buf.length
    · rw [strftime_fit L buf buf.length format d hfit]
      rcases h with h | h
      · exact absurd hfit h
      · exact h
    · rw [strftime_fail L buf buf.length format d hfit]
  refine ⟨resize (strftime L buf buf.length format d).2 (buf.length * 2) (Char.ofNat 0),
    length_resize _ _ _, ?_⟩
  rw [date.loop, hz]
  simp

theorem date_call_eq (L : Libc) (d : fmt.date) (format : List Char) (t : Bool) :
    date.call L d format t = date.loop L d format 2 (List.replicate 8 (Char.ofNat 0)) := by
  cases t <;> simp [date.call, fmt.to_string]

/-- An expansion of 1 to 7 characters is returned from the first call. -/
theorem date_call_short (L : Libc) (d : fmt.date) (format : List Char) (t : Bool)
    (h1 : 0 < (L.expand d format).length) (h2 : (L.expand d format).length ≤ 7) :
    date.call L d format t = L.expand d format := by
  rw [date_call_eq]
  exact date_loop_fit L d format 1 _ h1 (by simp; omega)

/-- An expansion of 8 to 15 characters is returned from the second call. -/
theorem date_call_medium (L : Libc) (d : fmt.date) (format : List Char) (t : Bool)
    (h1 : 8 ≤ (L.expand d format).length) (h2 : (L.expand d format).length ≤ 15) :
    date.call L d format t = L.expand d format := by
  rw [date_call_eq]
  obtain ⟨buf', hlen, heq⟩ := date_loop_fail L d format 1 (List.replicate 8 (Char.ofNat 0))
    (Or.inl (by simp; omega))
  rw [heq]
  exact date_loop_fit L d format 0 buf' (by omega) (by rw [hlen]; simp; omega)

/-- An expansion of 16 characters or more, and the empty expansion, make both
calls fail; what is returned is the buffer of 32 characters. -/
theorem date_call_long (L : Libc) (d : fmt.date) (format : List Char) (t : Bool)
    (h : 16 ≤ (L.expand d format).length ∨ (L.expand d format).length = 0) :
    (date.call L d format t).length = 32 := by
  rw [date_call_eq]
  obtain ⟨buf1, hlen1, heq1⟩ := date_loop_fail L d format 1 (List.replicate 8 (Char.ofNat 0))
    (by rcases h with h | h
        · exact Or.inl (by simp; omega)
        · exact Or.inr h)
  obtain ⟨buf2, hlen2, heq2⟩ := date_loop_fail L d format 0 buf1
    (by rcases h with h | h
        · exact Or.inl (by rw [hlen1]; simp; omega)
        · exact Or.inr h)
  rw [heq1, heq2, date.loop, hlen2, hlen1]
  simp

/-- C10 at its failing input: for the format `%c`, whose expansion at `epoch`
in the "C" locale is the 24 characters `Thu Jan  1 00:00:00 1970`, both calls
of `strftime` fail (8 and 16 characters) and `operator()` returns the buffer
of 32 characters (all of them NUL with a library that leaves the array alone
when it fails), not the expansion. -/
theorem date_call_percent_c :
    sampleLibc.expand epoch "%c".toList = "Thu Jan  1 00:00:00 1970".toList ∧
    (sampleLibc.expand epoch "%c".toList).length = 24 ∧
    date.call sampleLibc epoch "%c".toList true = List.replicate 32 (Char.ofNat 0) ∧
    date.call sampleLibc epoch "%c".toList true ≠ sampleLibc.expand epoch "%c".toList := by
  refine ⟨by decide, by decide, by decide, by decide⟩

end env

/-! ## Strings: `fmt::replace`, `fmt::split`, `env::exe::get`, integers as text -/

theorem isPrefixOf_iff_append (s l : List Char) :
    s.isPrefixOf l = true ↔ ∃ t, l = s ++ t := by
  induction s generalizing l with
  | nil => simp
  | cons a s ih =>
    cases l with
    | nil => simp
    | cons b l =>
      simp only [List.isPrefixOf, Bool.and_eq_true, beq_iff_eq, ih, List.cons_append,
        List.cons.injEq]
      constructor
      · rintro ⟨rfl, t, rfl⟩
        exact ⟨t, rfl, rfl⟩
      · rintro ⟨t, rfl, rfl⟩
        exact ⟨rfl, t, rfl⟩

namespace fmt

theorem replaceSpec_nil (s r : List Char) : replaceSpec s r [] = [] := by
  rw [replaceSpec]

theorem replaceSpec_hit (s r : List Char) (hs : s ≠ []) (t : List Char) :
    replaceSpec s r (s ++ t) = r ++ replaceSpec s r t := by
  cases hst : s ++ t with
  | nil => simp at hst; exact absurd hst.1 hs
  | cons c cs =>
    rw [replaceSpec]
    have hp : s.isPrefixOf (c :: cs) = true := (isPrefixOf_iff_append s _).mpr ⟨t, hst.symm⟩
    rw [if_pos ⟨hs, hp⟩, ← hst]
    simp

theorem replaceSpec_miss (s r : List Char) (c : Char) (cs : List Char)
    (h : s.isPrefixOf (c :: cs) = false) :
    replaceSpec s r (c :: cs) = c :: replaceSpec s r cs := by
  rw [replaceSpec]
  simp [h]

/-- No occurrence found: the pass changes nothing. -/
theorem replaceSpec_of_findAt_none (s r : List Char) (hs : s ≠ []) :
    ∀ (l : List Char) (k : Nat), std.findAt s l k = none → replaceSpec s r l = l
  | [], _, _ => replaceSpec_nil s r
  | c :: cs, k, h => by
    by_cases hp : s.isPrefixOf (c :: cs) = true
    · simp [std.findAt, hp] at h
    · have hp' : s.isPrefixOf (c :: cs) = false := Bool.eq_false_iff.mpr hp
      simp only [std.findAt, hp', Bool.false_eq_true, if_false] at h
      rw [replaceSpec_miss s r c cs hp', replaceSpec_of_findAt_none s r hs cs (k + 1) h]

/-- An occurrence found at `j`: the text before it is kept, the occurrence
gives way to `r`, and the pass goes on behind it. -/
theorem replaceSpec_of_findAt_some (s r : List Char) (hs : s ≠ []) :
    ∀ (l : List Char) (k j : Nat), std.findAt s l k = some j →
      ∃ a b, l = a ++ s ++ b ∧ j = k + a.length ∧
        replaceSpec s r l = a ++ r ++ replaceSpec s r b
  | [], k, j, h => by simp [std.findAt, hs] at h
  | c :: cs, k, j, h => by
    by_cases hp : s.isPrefixOf (c :: cs) = true
    · simp only [std.findAt, hp, if_true, Option.some.injEq] at h
      obtain ⟨t, ht⟩ := (isPrefixOf_iff_append s _).mp hp
      refine ⟨[], t, by simpa using ht, by simp [h], ?_⟩
      rw [ht, replaceSpec_hit s r hs]
      simp
    · have hp' : s.isPrefixOf (c :: cs) = false := Bool.eq_false_iff.mpr hp
      simp only [std.findAt, hp', Bool.false_eq_true, if_false] at h
      obtain ⟨a, b, hl, hj, hr⟩ := replaceSpec_of_findAt_some s r hs cs (k + 1) j h
      refine ⟨c :: a, b, by simp [hl], by simp [hj]; omega, ?_⟩
      rw [replaceSpec_miss s r c cs hp', hr]
      simp

theorem find_append (pre rest s : List Char) :
    std.find (pre ++ rest) s pre.length = std.findAt s rest pre.length := by
  simp [std.find]

theorem replaceLoop_spec (s r : List Char) (hs : s ≠ []) :
    ∀ (n : Nat) (pre rest : List Char), rest.length < n →
      replaceLoop s r n (pre ++ rest) (std.findAt s rest pre.length) =
        .ok (pre ++ replaceSpec s r rest)
  | 0, _, _, h => absurd h (Nat.not_lt_zero _)
  | n + 1, pre, rest, h => by
    cases hf : std.findAt s rest pre.length with
    | none =>
      rw [replaceLoop, replaceSpec_of_findAt_none s r hs rest _ hf]
    | some j =>
      obtain ⟨a, b, hl, hj, hr⟩ := replaceSpec_of_findAt_some s r hs rest _ j hf
      have hlen : 0 < s.length := List.length_pos.mpr hs
      have hrep : std.replace (pre ++ rest) j s.length r = some ((pre ++ a ++ r) ++ b) := by
        have h1 : (pre ++ rest).take j = pre ++ a := by
          rw [hl, hj, show pre ++ (a ++ s ++ b) = (pre ++ a) ++ (s ++ b) by simp,
            show pre.length + a.length = (pre ++ a).length by simp, List.take_left']
          rfl
        have h2 : (pre ++ rest).drop (j + s.length) = b := by
          rw [hl, hj, show pre ++ (a ++ s ++ b) = (pre ++ a ++ s) ++ b by simp,
            show pre.length + a.length + s.length = (pre ++ a ++ s).length by
              simp only [List.length_append],
            List.drop_left']
          rfl
        have h3 : ¬ (pre ++ rest).length < j := by
          rw [hl, hj]; simp only [List.length_append]; omega
        simp only [std.replace, h3, if_false, h1, h2]
      have hb : b.length < n := by
        have := congrArg List.length hl
        simp at this
        omega
      have ih := replaceLoop_spec s r hs n (pre ++ a ++ r) b hb
      rw [replaceLoop, hrep]
      simp only
      have hpos : j + r.length = (pre ++ a ++ r).length := by
        simp only [List.length_append, hj]
      rw [hpos, find_append, ih, hr]
      simp

end fmt

namespace fmt

/-- C14. For every buffer, every non-empty search string `s` and every
replacement `r`, `fmt::replace` ends within one iteration more than the
buffer has characters (any larger bound gives the same), without an
exception, and
leaves the single left-to-right pass result: each occurrence of `s` met when
scanning the original buffer is replaced by `r`, the scan goes on behind the
occurrence, and the other characters are kept. -/
theorem replace_single_pass (buf s r : List Char) (hs : s ≠ []) (n : Nat)
    (hn : buf.length < n) :
    replace n buf s r = .ok (replaceSpec s r buf) := by
  have h := replaceLoop_spec s r hs n [] buf hn
  simpa [replace, std.find] using h

/-- Witness of C14: a replacement that contains the search string, and an
empty one. -/
theorem replace_single_pass_witness :
    "X".toList ≠ [] ∧ "aXbXc".toList.length < 6 ∧
    replace 6 "aXbXc".toList "X".toList "XX".toList =
      .ok (replaceSpec "X".toList "XX".toList "aXbXc".toList) ∧
    replace 6 "aXbXc".toList "X".toList "XX".toList = .ok "aXXbXXc".toList ∧
    replace 6 "aXbXc".toList "X".toList [] = .ok "abc".toList :=
  ⟨by decide, by decide,
    replace_single_pass "aXbXc".toList "X".toList "XX".toList (by decide) 6 (by decide),
    by decide, by decide⟩

end fmt

namespace std

/-- The first index at which `p` holds, by the part of the list before it. -/
theorem findIdx_eq (p : Char → Bool) :
    ∀ (l : List Char) (i : Nat), findIdx p l i =
      if (l.dropWhile fun c => !p c) = [] then none
      else some (i + (l.takeWhile fun c => !p c).length)
  | [], i => by simp [findIdx]
  | c :: cs, i => by
    by_cases hp : p c = true
    · simp [findIdx, hp, List.dropWhile_cons, List.takeWhile_cons]
    · have hp' : p c = false := Bool.eq_false_iff.mpr hp
      simp only [findIdx, hp', Bool.false_eq_true, if_false, List.dropWhile_cons,
        List.takeWhile_cons, Bool.not_false, if_true, List.length_cons]
      rw [findIdx_eq p cs (i + 1)]
      split
      · rfl
      · congr 1
        omega

end std

namespace fmt

theorem runs_nil (del : List Char) : runs del [] = [] := by
  rw [runs]

theorem runs_cons_delim (del : List Char) (c : Char) (cs : List Char)
    (h : del.contains c = true) : runs del (c :: cs) = runs del cs := by
  rw [runs, if_pos h]

theorem runs_cons_other (del : List Char) (c : Char) (cs : List Char)
    (h : del.contains c = false) :
    runs del (c :: cs) =
      (c :: cs).takeWhile (fun x => !del.contains x) ::
        runs del ((c :: cs).dropWhile fun x => !del.contains x) := by
  rw [runs, if_neg (by simp only [h, Bool.false_eq_true, not_false_eq_true])]

/-- Delimiters in front of a string do not matter. -/
theorem runs_dropWhile_delim (del : List Char) :
    ∀ l : List Char, runs del (l.dropWhile fun c => del.contains c) = runs del l
  | [] => by simp
  | c :: cs => by
    by_cases h : del.contains c = true
    · rw [List.dropWhile_cons, if_pos h, runs_cons_delim del c cs h]
      exact runs_dropWhile_delim del cs
    · rw [List.dropWhile_cons, if_neg h]

/-- The runs of a string by its first run and what follows the delimiters
behind it. -/
theorem runs_split (del : List Char) (l : List Char) :
    runs del l =
      (if l.takeWhile (fun c => !del.contains c) = [] then []
        else [l.takeWhile fun c => !del.contains c]) ++
      runs del ((l.dropWhile fun c => !del.contains c).dropWhile fun c => del.contains c) := by
  cases l with
  | nil => simp [runs_nil]
  | cons c cs =>
    by_cases h : del.contains c = true
    · have h1 : (c :: cs).takeWhile (fun c => !del.contains c) = [] := by
        simp only [List.takeWhile_cons, h, Bool.not_true, Bool.false_eq_true, if_false]
      have h2 : (c :: cs).dropWhile (fun c => !del.contains c) = c :: cs := by
        simp only [List.dropWhile_cons, h, Bool.not_true, Bool.false_eq_true, if_false]
      rw [h1, h2, runs_dropWhile_delim]
      simp
    · have h' : del.contains c = false := Bool.eq_false_iff.mpr h
      have h1 : (c :: cs).takeWhile (fun c => !del.contains c) ≠ [] := by
        simp only [List.takeWhile_cons, h', Bool.not_false, if_true, ne_eq, reduceCtorEq,
          not_false_eq_true]
      rw [if_neg h1, runs_dropWhile_delim, runs_cons_other del c cs h']
      simp

end fmt

namespace std

theorem findIdx_not_eq (q : Char → Bool) (l : List Char) (i : Nat) :
    findIdx (fun c => !q c) l i =
      if l.dropWhile q = [] then none else some (i + (l.takeWhile q).length) := by
  have h := findIdx_eq (fun c => !q c) l i
  simpa only [Bool.not_not] using h

theorem find_first_of_append (pre rest del : List Char) :
    find_first_of (pre ++ rest) del (some pre.length) =
      findIdx (fun c => del.contains c) rest pre.length := by
  simp only [find_first_of, List.drop_left]

theorem find_first_not_of_append (pre rest del : List Char) :
    find_first_not_of (pre ++ rest) del (some pre.length) =
      findIdx (fun c => !del.contains c) rest pre.length := by
  simp only [find_first_not_of, List.drop_left]

end std

namespace fmt

theorem splitLoop_none (ndebug : Bool) (term : Char) (s del : List Char) (n : Nat)
    (t : Option Nat) (tok : List (List Char)) :
    splitLoop ndebug term s del n none t tok = .ok tok := by
  cases n <;> rfl

/-- The converting constructor gives the empty view whenever it returns. -/
theorem string_view_empty (ndebug : Bool) (view : List Char) (past : Char) (v : List Char)
    (h : string_view ndebug view past = some v) : v = [] := by
  unfold string_view at h
  cases hA : std.assert ndebug (Char.ofNat 0 == past) with
  | none => rw [hA] at h; exact absurd h (by simp)
  | some u => rw [hA] at h; simpa using h.symm

/-- With `NDEBUG` defined the converting constructor always returns, with the
empty view. -/
theorem string_view_ndebug (view : List Char) (past : Char) :
    string_view true view past = some [] := rfl

/-- Without `NDEBUG` the converting constructor aborts the program unless the
character behind the view is NUL. -/
theorem string_view_debug (view : List Char) (past : Char) (h : past ≠ Char.ofNat 0) :
    string_view false view past = none := by
  have h1 : (Char.ofNat 0 == past) = false := by
    simp only [beq_eq_false_iff_ne, ne_eq]
    exact fun e => h e.symm
  simp [string_view, std.assert, h1]

theorem dropWhile_head (p : Char → Bool) :
    ∀ (l : List Char) (c : Char) (cs : List Char), l.dropWhile p = c :: cs → p c = false
  | [], _, _, h => by simp at h
  | a :: l, c, cs, h => by
    by_cases hp : p a = true
    · rw [List.dropWhile_cons, if_pos hp] at h
      exact dropWhile_head p l c cs h
    · rw [List.dropWhile_cons, if_neg hp] at h
      simp only [List.cons.injEq] at h
      rw [← h.1]
      exact Bool.eq_false_iff.mpr hp

end fmt

namespace fmt

theorem splitLoop_cont (del : List Char) (n : Nat)
    (term : Char)
    (ih : ∀ (pre rest : List Char) (tok : List (List Char)), rest ≠ [] → rest.length < n →
      splitLoop true term (pre ++ rest) del n (some pre.length)
        (std.findIdx (fun c => del.contains c) rest pre.length) tok =
        .ok (tok ++ (runs del rest).map fun _ => []))
    (pre2 r2 : List Char) (tok2 : List (List Char))
    (hhead : ∀ c cs, r2 = c :: cs → del.contains c = true) (hl : r2.length ≤ n) :
    splitLoop true term (pre2 ++ r2) del n
      (std.find_first_not_of (pre2 ++ r2) del (some pre2.length))
      (std.find_first_of (pre2 ++ r2) del
        (std.find_first_not_of (pre2 ++ r2) del (some pre2.length))) tok2 =
      .ok (tok2 ++ (runs del r2).map fun _ => []) := by
  rw [std.find_first_not_of_append, std.findIdx_not_eq]
  by_cases h3 : r2.dropWhile (fun c => del.contains c) = []
  · rw [if_pos h3, splitLoop_none, ← runs_dropWhile_delim del r2, h3, runs_nil,
      List.map_nil, List.append_nil]
  · rw [if_neg h3]
    have hsplit := List.takeWhile_append_dropWhile (fun c => del.contains c) r2
    have hds : 0 < (r2.takeWhile fun c => del.contains c).length := by
      cases hr : r2 with
      | nil => simp [hr] at h3
      | cons c cs =>
        have := hhead c cs hr
        simp only [List.takeWhile_cons, this, if_true, List.length_cons]
        omega
    have hpos : pre2.length + (r2.takeWhile fun c => del.contains c).length =
        (pre2 ++ r2.takeWhile fun c => del.contains c).length := by
      simp only [List.length_append]
    have hs : pre2 ++ r2 = (pre2 ++ r2.takeWhile fun c => del.contains c) ++
        r2.dropWhile fun c => del.contains c := by
      rw [List.append_assoc, hsplit]
    have hlen3 : (r2.dropWhile fun c => del.contains c).length < n := by
      have := congrArg List.length hsplit
      simp only [List.length_append] at this
      omega
    rw [hpos, hs, std.find_first_of_append, ih _ _ tok2 h3 hlen3, runs_dropWhile_delim]

theorem splitLoop_runs (del : List Char) (term : Char) :
    ∀ (n : Nat) (pre rest : List Char) (tok : List (List Char)), rest ≠ [] → rest.length < n →
      splitLoop true term (pre ++ rest) del n (some pre.length)
        (std.findIdx (fun c => del.contains c) rest pre.length) tok =
        .ok (tok ++ (runs del rest).map fun _ => [])
  | 0, _, _, _, _, h => absurd h (Nat.not_lt_zero _)
  | n + 1, pre, rest, tok, hne, hlen => by
    have cont := splitLoop_cont del n term (splitLoop_runs del term n)
    have hwr := List.takeWhile_append_dropWhile (fun c => !del.contains c) rest
    have hruns := runs_split del rest
    rw [runs_dropWhile_delim] at hruns
    rw [std.findIdx_eq]
    by_cases h2 : rest.dropWhile (fun c => !del.contains c) = []
    · -- no delimiter in the rest: the rest is the last token
      have hw : rest.takeWhile (fun c => !del.contains c) = rest := by
        rw [h2, List.append_nil] at hwr
        exact hwr
      rw [hw, if_neg hne, h2, runs_nil] at hruns
      rw [if_pos h2, splitLoop, if_pos (by simp)]
      have hsub : std.substr (pre ++ rest) pre.length (std.count none pre.length) = some rest := by
        simp [std.substr, std.count]
      rw [hsub]
      simp only [string_view_ndebug, std.find_first_not_of]
      rw [splitLoop_none, hruns, List.append_nil]
      rfl
    · rw [if_neg h2]
      have hhead : ∀ c cs, rest.dropWhile (fun c => !del.contains c) = c :: cs →
          del.contains c = true := by
        intro c cs h
        have := dropWhile_head (fun c => !del.contains c) rest c cs h
        simpa using this
      by_cases hw : rest.takeWhile (fun c => !del.contains c) = []
      · -- the rest starts with a delimiter: nothing to push
        have hr2 : rest.dropWhile (fun c => !del.contains c) = rest := by
          rw [hw, List.nil_append] at hwr
          exact hwr
        rw [hw, if_pos rfl, List.nil_append, hr2] at hruns
        rw [hr2] at hhead
        rw [hw, List.length_nil, Nat.add_zero, splitLoop, if_neg (by simp)]
        simp only [Nat.add_zero]
        rw [cont pre rest tok hhead (by omega), hruns]
      · -- a run, then a delimiter
        have hwl : 0 < (rest.takeWhile fun c => !del.contains c).length :=
          List.length_pos.mpr hw
        rw [if_neg hw] at hruns
        have hs : pre ++ rest = (pre ++ rest.takeWhile fun c => !del.contains c) ++
            rest.dropWhile fun c => !del.contains c := by
          rw [List.append_assoc, hwr]
        have hpos : pre.length + (rest.takeWhile fun c => !del.contains c).length =
            (pre ++ rest.takeWhile fun c => !del.contains c).length := by
          simp only [List.length_append]
        have hsub : std.substr (pre ++ rest) pre.length
            (std.count (some (pre.length + (rest.takeWhile fun c => !del.contains c).length))
              pre.length) = some (rest.takeWhile fun c => !del.contains c) := by
          have h1 : ¬ pre.length + (rest.takeWhile fun c => !del.contains c).length <
              pre.length := by omega
          have h2 : ¬ (pre ++ rest).length < pre.length := by
            simp only [List.length_append]; omega
          simp only [std.substr, std.count, h1, h2, if_false, List.drop_left,
            Nat.add_sub_cancel_left]
          congr 1
          have h3 := List.take_left (rest.takeWhile fun c => !del.contains c)
            (rest.dropWhile fun c => !del.contains c)
          rw [hwr] at h3
          exact h3
        have hl2 : (rest.dropWhile fun c => !del.contains c).length ≤ n := by
          have := congrArg List.length hwr
          simp only [List.length_append] at this
          omega
        rw [splitLoop, if_pos (by intro h; simp only [Option.some.injEq] at h; omega), hsub]
        simp only [string_view_ndebug]
        rw [hpos, hs, cont _ _ _ hhead hl2, hruns]
        simp

/-- With `NDEBUG` defined and for every non-empty string, `fmt::split` ends
without an exception within one iteration more than the string has characters
and returns one token for each maximal run of non-delimiter characters, but
each token is the empty view. -/
theorem split_ndebug_runs (term : Char) (s del : List Char) (hs : s ≠ []) (n : Nat)
    (hn : s.length < n) :
    split true term n s del = .ok ((runs del s).map fun _ => []) := by
  have h := splitLoop_runs del term n [] s [] hs hn
  simpa [split, std.find_first_of] using h

end fmt

namespace fmt

/-- No run is empty and no run contains a delimiter. -/
theorem runs_tokens (del : List Char) :
    ∀ (n : Nat) (l : List Char), l.length ≤ n →
      ∀ t ∈ runs del l, t ≠ [] ∧ ∀ c ∈ t, del.contains c = false
  | 0, l, h => by
    have hl : l = [] := List.length_eq_zero.mp (Nat.le_zero.mp h)
    subst hl
    simp [runs_nil]
  | n + 1, [], _ => by simp [runs_nil]
  | n + 1, c :: cs, h => by
    intro t ht
    by_cases hc : del.contains c = true
    · rw [runs_cons_delim del c cs hc] at ht
      exact runs_tokens del n cs (by simpa using h) t ht
    · have hc' : del.contains c = false := Bool.eq_false_iff.mpr hc
      rw [runs_cons_other del c cs hc', List.mem_cons] at ht
      rcases ht with rfl | ht
      · refine ⟨by simp only [List.takeWhile_cons, hc', Bool.not_false, if_true, ne_eq,
          reduceCtorEq, not_false_eq_true], fun x hx => ?_⟩
        have := List.mem_takeWhile_imp hx
        simpa using this
      · refine runs_tokens del n _ ?_ t ht
        have h1 : (c :: cs).dropWhile (fun x => !del.contains x) =
            cs.dropWhile fun x => !del.contains x := by
          simp only [List.dropWhile_cons, hc', Bool.not_false, if_true]
        rw [h1]
        have := (List.dropWhile_sublist (fun x => !del.contains x) (l := cs)).length_le
        simp only [List.length_cons] at h
        omega

end fmt

namespace std

theorem findIdx_append_hit (p : Char → Bool) (d : Char) (rest : List Char) (hd : p d = true) :
    ∀ (pre : List Char) (i : Nat), (∀ c ∈ pre, p c = false) →
      findIdx p (pre ++ d :: rest) i = some (i + pre.length)
  | [], i, _ => by simp [findIdx, hd]
  | c :: cs, i, h => by
    have hc : p c = false := h c (List.mem_cons_self c cs)
    have ih := findIdx_append_hit p d rest hd cs (i + 1)
      (fun x hx => h x (List.mem_cons_of_mem c hx))
    rw [List.cons_append, findIdx, if_neg (by simp only [hc, Bool.false_eq_true,
      not_false_eq_true]), ih, List.length_cons]
    congr 1
    omega

end std

namespace fmt

/-- Every token of a result of the loop is empty when the tokens it started
with are. -/
theorem splitLoop_tokens_empty (ndebug : Bool) (term : Char) (s del : List Char) :
    ∀ (n : Nat) (a to_ : Option Nat) (tok toks : List (List Char)),
      (∀ t ∈ tok, t = []) → splitLoop ndebug term s del n a to_ tok = .ok toks →
      ∀ t ∈ toks, t = []
  | 0, none, _, tok, toks, h0, h => by
    simp only [splitLoop, Res.ok.injEq] at h
    subst h
    exact h0
  | 0, some _, _, _, _, _, h => by simp [splitLoop] at h
  | n + 1, none, _, tok, toks, h0, h => by
    simp only [splitLoop, Res.ok.injEq] at h
    subst h
    exact h0
  | n + 1, some a, to_, tok, toks, h0, h => by
    rw [splitLoop] at h
    by_cases hne : to_ ≠ some a
    · rw [if_pos hne] at h
      cases hsub : std.substr s a (std.count to_ a) with
      | none => rw [hsub] at h; simp at h
      | some t =>
        rw [hsub] at h
        simp only at h
        cases hv : string_view ndebug t (std.past s term a (std.count to_ a)) with
        | none => rw [hv] at h; simp at h
        | some v =>
          rw [hv] at h
          simp only at h
          have hve := string_view_empty ndebug _ _ v hv
          refine splitLoop_tokens_empty ndebug term s del n _ _ _ toks ?_ h
          intro x hx
          rcases List.mem_append.mp hx with hx | hx
          · exact h0 x hx
          · simp only [List.mem_singleton] at hx
            rw [hx, hve]
    · rw [if_neg hne] at h
      exact splitLoop_tokens_empty ndebug term s del n _ _ _ toks h0 h

/-- Whatever the build and the input, every token that `fmt::split` returns
is empty. -/
theorem split_tokens_empty (ndebug : Bool) (term : Char) (n : Nat) (s del : List Char)
    (toks : List (List Char)) (h : split ndebug term n s del = .ok toks) :
    ∀ t ∈ toks, t = [] :=
  splitLoop_tokens_empty ndebug term s del n _ _ [] toks (by simp) h

/-- Without `NDEBUG`, the iteration that finds a token followed by a character
other than NUL aborts the program. -/
theorem splitLoop_debug_aborts (term : Char) (del pre w rest : List Char) (d : Char)
    (hw : w ≠ []) (hd : d ≠ Char.ofNat 0) (n : Nat) (tok : List (List Char)) :
    splitLoop false term (pre ++ w ++ d :: rest) del (n + 1) (some pre.length)
      (some (pre.length + w.length)) tok = .aborted := by
  have hwl : 0 < w.length := List.length_pos.mpr hw
  rw [splitLoop, if_pos (by intro h; simp only [Option.some.injEq] at h; omega)]
  have hsub : std.substr (pre ++ w ++ d :: rest) pre.length
      (std.count (some (pre.length + w.length)) pre.length) = some w := by
    have h1 : ¬ pre.length + w.length < pre.length := by omega
    have h2 : ¬ (pre ++ (w ++ d :: rest)).length < pre.length := by
      simp only [List.length_append]; omega
    simp only [std.substr, std.count, h1, h2, if_false, Nat.add_sub_cancel_left,
      List.append_assoc, List.drop_left, List.take_left]
  have hpast : std.past (pre ++ w ++ d :: rest) term pre.length
      (std.count (some (pre.length + w.length)) pre.length) = d := by
    have h1 : ¬ pre.length + w.length < pre.length := by omega
    have h3 : pre.length + w.length = (pre ++ w).length := by simp only [List.length_append]
    simp only [std.past, std.count, h1, if_false, Nat.add_sub_cancel_left]
    rw [h3, List.drop_left]
    rfl
  rw [hsub]
  simp only [hpast, string_view_debug w d hd]

/-- Without `NDEBUG` and with a delimiter set that does not hold NUL,
`fmt::split` aborts the program on every string in which a run of
non-delimiter characters is followed by a delimiter. -/
theorem split_debug_aborts (term : Char) (del ds w rest : List Char) (d : Char)
    (hds : ∀ c ∈ ds, del.contains c = true) (hw : w ≠ [])
    (hw' : ∀ c ∈ w, del.contains c = false) (hd : del.contains d = true)
    (hnul : del.contains (Char.ofNat 0) = false) (n : Nat) :
    split false term (n + 2) (ds ++ w ++ d :: rest) del = .aborted := by
  have hd0 : d ≠ Char.ofNat 0 := by
    intro e
    rw [e, hnul] at hd
    exact absurd hd (by simp)
  cases ds with
  | nil =>
    have hto : std.find_first_of ([] ++ w ++ d :: rest) del (some 0) = some (0 + w.length) := by
      simp only [std.find_first_of, List.drop_zero, List.nil_append]
      exact std.findIdx_append_hit (fun c => del.contains c) d rest hd w 0 hw'
    rw [split, hto]
    exact splitLoop_debug_aborts term del [] w rest d hw hd0 (n + 1) []
  | cons c cs =>
    have hc : del.contains c = true := hds c (List.mem_cons_self c cs)
    obtain ⟨x, xs, hx⟩ := List.exists_cons_of_ne_nil hw
    have hxd : del.contains x = false := hw' x (by rw [hx]; exact List.mem_cons_self x xs)
    have hto : std.find_first_of (c :: cs ++ w ++ d :: rest) del (some 0) = some 0 := by
      simp only [std.find_first_of, List.drop_zero, List.cons_append, std.findIdx, hc, if_true]
    have hat : std.find_first_not_of (c :: cs ++ w ++ d :: rest) del (some 0) =
        some (c :: cs).length := by
      have h := std.findIdx_append_hit (fun c => !del.contains c) x (xs ++ d :: rest)
        (by simp only [hxd, Bool.not_false]) (c :: cs) 0
        (fun y hy => by simp only [hds y hy, Bool.not_true])
      simp only [std.find_first_not_of, List.drop_zero]
      rw [hx]
      simpa only [List.append_assoc, List.cons_append, Nat.zero_add] using h
    have hto2 : std.find_first_of (c :: cs ++ w ++ d :: rest) del (some (c :: cs).length) =
        some ((c :: cs).length + w.length) := by
      rw [List.append_assoc, std.find_first_of_append]
      exact std.findIdx_append_hit (fun c => del.contains c) d rest hd w _ hw'
    rw [split, hto, splitLoop, if_neg (by simp), hat, hto2]
    exact splitLoop_debug_aborts term del (c :: cs) w rest d hw hd0 n []

theorem split_debug_aborts_witness :
    split false 'x' 2 (" ".toList ++ "a".toList ++ ' ' :: "b".toList) [' '] = .aborted :=
  split_debug_aborts 'x' [' '] " ".toList "a".toList "b".toList ' ' (by decide) (by decide)
    (by decide) (by decide) (by decide) 0

end fmt

namespace fmt

/-- C11 fails in the code: the tokens of `fmt::split` are built by the
converting constructor of `fmt::string_view`, which leaves every token empty.
On `"a b"` split at the blank, whose maximal runs are `"a"` and `"b"`, the
code returns two empty tokens when `NDEBUG` is defined and aborts the program
otherwise; on the empty string, which has no run, it returns one token, an
empty one; on the format list of `test_unit(time)`, which has 11 runs, it
returns 11 empty tokens. -/
theorem split_tokens_lost (term : Char) :
    runs [' '] "a b".toList = ["a".toList, "b".toList] ∧
    split true term 4 "a b".toList [' '] = .ok [[], []] ∧
    split false term 4 "a b".toList [' '] = .aborted ∧
    runs [' '] [] = [] ∧ split true term 1 [] [' '] = .ok [[]] ∧
    (runs [' '] sampleFormats).length = 11 ∧
    split true term 33 sampleFormats [' '] = .ok (List.replicate 11 []) :=
  ⟨by simp [runs], rfl, rfl, by rw [runs], rfl, by simp [runs, sampleFormats], rfl⟩

end fmt

namespace env
namespace exe

theorem command_foldl (any_of : List Char → Bool) :
    ∀ (args : List (List Char)) (acc : List Char),
      args.foldl
        (fun command arg =>
          let spaces := any_of arg
          let opened := if spaces then command ++ ['"'] else command
          let named := opened ++ arg
          if spaces then named ++ ['"'] else named) acc =
      acc ++ (args.map fun arg => if any_of arg then ['"'] ++ arg ++ ['"'] else arg).flatten
  | [], acc => by simp
  | a :: args, acc => by
    rw [List.foldl_cons, command_foldl any_of args]
    by_cases h : any_of a = true <;> simp [h]

/-- The command line is the arguments, quoted where `fmt::any_of` says so,
one after the other with nothing between them. -/
theorem command_eq (any_of : List Char → Bool) (args : List (List Char)) :
    command any_of args =
      (args.map fun arg => if any_of arg then ['"'] ++ arg ++ ['"'] else arg).flatten := by
  rw [command, command_foldl]
  simp

theorem length_intercalate_cons (sep x : List Char) :
    ∀ (xs : List (List Char)),
      (sep.intercalate (x :: xs)).length = (x :: xs).flatten.length + xs.length * sep.length
  | [] => by simp [List.intercalate]
  | y :: ys => by
    have ih := length_intercalate_cons sep y ys
    simp only [List.intercalate, List.intersperse, List.flatten_cons, List.length_append,
      List.length_cons] at ih ⊢
    rw [ih]
    ring

/-- With two or more arguments the command line is shorter than the one of
C12 by one character for each pair of neighbours: the separating spaces. -/
theorem command_length_short (a : List Char) (args : List (List Char)) :
    (commandSpec (a :: args)).length = (command anySpace (a :: args)).length + args.length := by
  rw [command_eq, commandSpec]
  have h := length_intercalate_cons " ".toList
    (if a.any Char.isWhitespace then ['"'] ++ a ++ ['"'] else a)
    (args.map fun arg => if arg.any Char.isWhitespace then ['"'] ++ arg ++ ['"'] else arg)
  simp only [List.map_cons, anySpace] at h ⊢
  rw [h]
  simp

end exe
end env

namespace env
namespace exe

/-- C12 at its failing input: for `echo("$USER")` the command line is
`echo$USER`, the two arguments without a space between them, not
`echo $USER`. -/
theorem echo_command_unseparated :
    command anySpace ["echo".toList, "$USER".toList] = "echo$USER".toList ∧
    commandSpec ["echo".toList, "$USER".toList] = "echo $USER".toList ∧
    command anySpace ["echo".toList, "$USER".toList] ≠
      commandSpec ["echo".toList, "$USER".toList] ∧
    ∀ shell, echo shell anySpace "$USER".toList = shell "echo$USER".toList := by
  refine ⟨by decide, by decide, by decide, fun shell => ?_⟩
  have h : command anySpace ["echo".toList, "$USER".toList] = "echo$USER".toList := by decide
  simp only [echo, get, h]

end exe
end env

namespace std

theorem digitVal_digitChar : ∀ d, d < 36 → digitVal (digitChar d) = some d := by decide

theorem digitVal_minus : digitVal '-' = none := by decide

/-- The digits of `n`, least significant first: each is a digit of the base,
and they add up to `n`. -/
theorem digitsRev_spec (b : Nat) (hb : 2 ≤ b) (hb' : b ≤ 36) :
    ∀ (f n : Nat), n < f →
      (∀ c ∈ digitsRev b f n, ∃ d, digitVal c = some d ∧ d < b) ∧
      (digitsRev b f n).foldr (fun c a => a * b + (digitVal c).getD 0) 0 = n ∧
      digitsRev b f n ≠ []
  | 0, _, h => absurd h (Nat.not_lt_zero _)
  | f + 1, n, h => by
    by_cases hn : n < b
    · simp only [digitsRev, hn, if_true, List.mem_singleton, forall_eq, List.foldr_cons,
        List.foldr_nil, Nat.zero_mul, Nat.zero_add, ne_eq, List.cons_ne_nil, not_false_eq_true,
        and_true]
      have hd := digitVal_digitChar n (by omega)
      exact ⟨⟨n, hd, hn⟩, by rw [hd]; rfl⟩
    · have hlt : n / b < f := by
        have : n / b < n := Nat.div_lt_self (by omega) (by omega)
        omega
      obtain ⟨h1, h2, -⟩ := digitsRev_spec b hb hb' f (n / b) hlt
      have hm : n % b < b := Nat.mod_lt _ (by omega)
      have hd := digitVal_digitChar (n % b) (by omega)
      simp only [digitsRev, hn, if_false, List.mem_cons, forall_eq_or_imp, List.foldr_cons, h2,
        ne_eq, List.cons_ne_nil, not_false_eq_true, and_true]
      refine ⟨⟨⟨n % b, hd, hm⟩, h1⟩, ?_⟩
      rw [hd]
      exact Nat.div_add_mod' n b

/-- Reading a text that consists of digits of the base reads all of it. -/
theorem readDigits_all (b : Nat) :
    ∀ (l : List Char) (acc k : Nat), (∀ c ∈ l, ∃ d, digitVal c = some d ∧ d < b) →
      readDigits b l acc k =
        (l.foldl (fun a c => a * b + (digitVal c).getD 0) acc, k + l.length)
  | [], acc, k, _ => by simp [readDigits]
  | c :: cs, acc, k, h => by
    obtain ⟨d, hd, hlt⟩ := h c (List.mem_cons_self _ _)
    simp only [readDigits, hd, hlt, if_true, List.foldl_cons, Option.getD_some,
      List.length_cons]
    rw [readDigits_all b cs _ _ fun c hc => h c (List.mem_cons_of_mem _ hc)]
    congr 1
    omega

/-- Reading the digits of `n` gives `n`. -/
theorem readDigits_digits (b : Nat) (hb : 2 ≤ b) (hb' : b ≤ 36) (n : Nat) :
    readDigits b (digits b n) 0 0 = (n, (digits b n).length) ∧ (digits b n).length ≠ 0 ∧
    ∀ c ∈ digits b n, c ≠ '-' := by
  obtain ⟨h1, h2, h3⟩ := digitsRev_spec b hb hb' (n + 1) n (Nat.lt_succ_self n)
  have hall : ∀ c ∈ digits b n, ∃ d, digitVal c = some d ∧ d < b := by
    intro c hc
    exact h1 c (List.mem_reverse.mp hc)
  refine ⟨?_, ?_, ?_⟩
  · rw [readDigits_all b _ 0 0 hall, Nat.zero_add]
    congr 1
    rw [digits, List.foldl_reverse]
    exact h2
  · rw [digits, List.length_reverse]
    exact fun h => h3 (List.length_eq_zero.mp h)
  · intro c hc heq
    obtain ⟨d, hd, -⟩ := hall c hc
    rw [heq, digitVal_minus] at hd
    exact absurd hd (by simp)

/-- `std::from_chars` reads back what `std::to_chars` writes. -/
theorem from_chars_repr (T : IntType) (b : Nat) (hb : 2 ≤ b) (hb' : b ≤ 36) (v nan : Int)
    (hmin : T.min ≤ v) (hmax : v ≤ T.max) :
    from_chars T (repr v b) nan b =
      { ptr := (repr v b).length, ec := .noerr, value := v } := by
  obtain ⟨hr, hlen, hminus⟩ := readDigits_digits b hb hb' v.natAbs
  by_cases hv : v < 0
  · have hneg : -((v.natAbs : Nat) : Int) = v := by omega
    simp only [repr, hv, if_true, from_chars, hr, hlen, if_false, hneg,
      show T.min < 0 by omega, show ¬ v < T.min by omega, List.length_cons]
  · have hpos : ((v.natAbs : Nat) : Int) = v := by omega
    simp only [repr, hv, if_false]
    unfold from_chars
    split
    · rename_i cs heq
      exact absurd rfl (hminus '-' (by rw [heq]; exact List.mem_cons_self _ _))
    · simp only [hr, hlen, if_false, hpos, show ¬ T.max < v by omega]

end std

namespace fmt

/-- A text of at most 20 characters is returned as `std::to_chars` writes
it. -/
theorem from_base_fits (e : Env) (showErrc : std.errc → String) (junk : List Char → List Char)
    (v : Int) (b : Nat) (out : Out) (h : (std.repr v b).length ≤ 20) :
    from_base e showErrc junk v b out = some (std.repr v b, out) := by
  have h' : (std.repr v b).length ≤ (List.replicate 20 (Char.ofNat 0)).length := by
    simpa using h
  simp only [from_base, std.to_chars, h', if_true, ne_eq, not_true_eq_false, if_false,
    env.resize_append_left]

/-- A text of more than 20 characters is not returned: the result is the
buffer of 40 characters, the last 20 of which are NUL. -/
theorem from_base_too_large (e : Env) (showErrc : std.errc → String)
    (junk : List Char → List Char) (v : Int) (b : Nat) (out : Out)
    (h : 20 < (std.repr v b).length) :
    ∃ s, from_base e showErrc junk v b out = some (s, out) ∧ s.length = 40 ∧
      s.drop 20 = List.replicate 20 (Char.ofNat 0) := by
  have h' : ¬ (std.repr v b).length ≤ (List.replicate 20 (Char.ofNat 0)).length := by
    simp only [List.length_replicate]
    omega
  have heq : from_base e showErrc junk v b out =
      some (env.resize (env.resize (junk (List.replicate 20 (Char.ofNat 0))) 20 (Char.ofNat 0))
        40 (Char.ofNat 0), out) := by
    have h2 : ¬ (std.repr v b).length ≤ 20 := by omega
    simp only [from_base, std.to_chars, List.length_replicate, h2, if_false, ne_eq,
      reduceCtorEq, not_false_eq_true, if_true]
  refine ⟨_, heq, env.length_resize _ 40 (Char.ofNat 0), ?_⟩
  have hl : (env.resize (junk (List.replicate 20 (Char.ofNat 0))) 20 (Char.ofNat 0)).length =
      20 := env.length_resize _ 20 _
  rw [env.resize, List.take_of_length_le (by omega), hl]
  have h3 := List.drop_left
    (env.resize (junk (List.replicate 20 (Char.ofNat 0))) 20 (Char.ofNat 0))
    (List.replicate (40 - 20) (Char.ofNat 0))
  rw [hl] at h3
  exact h3

/-- The text `std::to_chars` writes for a value of the type is read back by
`to_base` as that value, without a warning. -/
theorem to_base_repr (e : Env) (showErrc : std.errc → String) (T : std.IntType) (nan v : Int)
    (b : Nat) (out : Out) (hb : 2 ≤ b) (hb' : b ≤ 36) (hmin : T.min ≤ v) (hmax : v ≤ T.max) :
    to_base e showErrc T nan (std.repr v b) b out = some (v, out) := by
  simp only [to_base, std.from_chars_repr T b hb hb' v nan hmin hmax, ne_eq,
    not_true_eq_false, if_false]

end fmt

namespace std

theorem digitVal_nul : digitVal (Char.ofNat 0) = none := by decide

/-- The text of a value has no NUL character. -/
theorem repr_no_nul (v : Int) (b : Nat) (hb : 2 ≤ b) (hb' : b ≤ 36) :
    Char.ofNat 0 ∉ repr v b := by
  obtain ⟨h1, -, -⟩ := digitsRev_spec b hb hb' (v.natAbs + 1) v.natAbs (Nat.lt_succ_self _)
  have hd : Char.ofNat 0 ∉ digits b v.natAbs := by
    intro hc
    obtain ⟨d, hd, -⟩ := h1 _ (List.mem_reverse.mp hc)
    rw [digitVal_nul] at hd
    exact absurd hd (by simp)
  by_cases hv : v < 0
  · simp only [repr, hv, if_true, List.mem_cons, not_or]
    exact ⟨by decide, hd⟩
  · simp only [repr, hv, if_false]
    exact hd

end std

namespace fmt

/-- Whenever the text of a value is longer than 20 characters, what
`from_base` returns is not that text. -/
theorem from_base_too_large_ne (e : Env) (showErrc : std.errc → String)
    (junk : List Char → List Char) (v : Int) (b : Nat) (out : Out) (hb : 2 ≤ b) (hb' : b ≤ 36)
    (h : 20 < (std.repr v b).length) :
    from_base e showErrc junk v b out ≠ some (std.repr v b, out) := by
  obtain ⟨s, hs, hlen, hdrop⟩ := from_base_too_large e showErrc junk v b out h
  rw [hs]
  intro heq
  simp only [Option.some.injEq, Prod.mk.injEq, and_true] at heq
  have hmem : Char.ofNat 0 ∈ s.drop 20 := by
    rw [hdrop]
    simp
  exact std.repr_no_nul v b hb hb' (heq ▸ List.mem_of_mem_drop hmem)

/-- Within 20 characters the round trip of C13 holds for `long`: the text is
the one of `std::to_chars`, and `to_long` reads the value back. -/
theorem to_long_to_string_fits (e : Env) (showErrc : std.errc → String)
    (junk : List Char → List Char) (nan v : Int) (b : Nat) (out : Out) (hb : 2 ≤ b)
    (hb' : b ≤ 36) (hmin : (std.long e).min ≤ v) (hmax : v ≤ (std.long e).max)
    (h : (std.repr v b).length ≤ 20) :
    to_string_long e showErrc junk v b out = some (std.repr v b, out) ∧
    to_long e showErrc nan (std.repr v b) b out = some (v, out) :=
  ⟨from_base_fits e showErrc junk v b out h,
    to_base_repr e showErrc (std.long e) nan v b out hb hb' hmin hmax⟩

end fmt

namespace fmt

/-- C13 at its failing input: `to_string(1048576L, 2)` needs 21 characters,
`std::to_chars` fails on the 20 there are, and the string returned is the
buffer of 40 characters (all NUL with a library that leaves the array alone),
not the 21 digits; `to_long` of it reads no digit and returns its initial
value after a warning. -/
theorem to_string_long_base_two :
    std.repr 1048576 2 = '1' :: List.replicate 20 '0' ∧
    to_string_long sys.envPosix sampleErrc id 1048576 2 [] =
      some (List.replicate 40 (Char.ofNat 0), []) ∧
    to_long sys.envPosix sampleErrc 0 (List.replicate 40 (Char.ofNat 0)) 2 [] =
      some (0, ["dig.cpp:33 to_base invalid argument"]) ∧
    to_long sys.envPosix sampleErrc 0 (std.repr 1048576 2) 2 [] = some (1048576, []) := by
  refine ⟨by decide, by decide, by decide, by decide⟩

end fmt

end OSpath
